import Mathlib

/-!
Verification of the multi-threaded job system (centralized fair scheduler).

Shallow embedding of the scheduling core:
* `Job`, `ClientState`, `OverflowStrategy`  — src/unnamed/part_002 (client_state.h), include/job_system/job.h
* `Scheduler` operations                    — src/src/scheduler.cpp
* `DeficitRoundRobinPolicy.select_next_job` — src/unnamed/part_000 (drr_policy.cpp)
* `WeightedRoundRobinPolicy`                — modelled from the spec (its .cpp is not in src)

Conventions of the embedding:
* The opaque callable `task` and the wall-clock `enqueue_time` of a `Job` are dropped:
  no claim observes them.  `job_id`, `client_id` and `cost_hint` are kept.
* `uint64_t` / `size_t` / `uint32_t` counters are modelled as `Nat` (the claims are
  exact counting identities; the C++ counters are monotone and wrap only at 2^64),
  the `int64_t` deficit counter as `Int`.
* The registry `std::unordered_map` plus the `client_order_` vector are modelled as an
  association list `List (String × ClientState)` whose key order is `client_order_`
  (the scheduler only ever iterates the map where order is irrelevant, and looks up
  by key); well-formed states have `Nodup` keys.
* A C++ `throw` is modelled by an outcome constructor carrying the state at the throw
  point (mutations performed before the throw are visible in that state).
* Blocking (`BLOCK` at capacity, i.e. a wait on the condition variable) is modelled by
  the outcome `blocked`: the submission has not completed and nothing but the already
  consumed `next_job_id_` ticket has changed.
-/

namespace JobSystem

/-- `enum class OverflowStrategy` from client_state.h. -/
inductive OverflowStrategy where
  | REJECT
  | BLOCK
  | DROP_OLDEST
  | DROP_NEWEST
deriving DecidableEq, Repr

/-- The error taxonomy of the scheduler (each C++ `throw` site in scheduler.cpp). -/
inductive SchedError where
  | InvalidArgument
  | AlreadyRegistered
  | UnknownClient
  | QueueFull
deriving DecidableEq, Repr

/-- `struct Job` from job.h, without the opaque callable and the wall-clock stamp. -/
structure Job where
  client_id : String
  job_id : Nat
  cost_hint : Nat
deriving DecidableEq, Repr

/-- `struct ClientState` (CCB) from client_state.h.

`dropped_incoming` is a ghost (history) variable, not present in the source: it counts
the submissions that were refused under `REJECT` or discarded under `DROP_NEWEST`,
i.e. the overflow events whose job was never enqueued and never counted in
`submitted_count`.  It influences no behaviour; it exists only to state counting
invariants. -/
structure ClientState where
  client_id : String
  weight : Nat
  queue : List Job
  submitted_count : Nat
  executed_count : Nat
  total_execution_time_us : Nat
  overflow_count : Nat
  max_queue_depth : Nat
  overflow_strategy : OverflowStrategy
  dropped_incoming : Nat
deriving DecidableEq, Repr

/-- The `ClientState` constructor: all counters start at zero, queue empty. -/
def mkClientState (id : String) (w : Nat) (max_depth : Nat)
    (strategy : OverflowStrategy) : ClientState :=
  { client_id := id
    weight := w
    queue := []
    submitted_count := 0
    executed_count := 0
    total_execution_time_us := 0
    overflow_count := 0
    max_queue_depth := max_depth
    overflow_strategy := strategy
    dropped_incoming := 0 }

/-- The registry: `clients_` map and `client_order_` vector fused into one association
list in registration order (keys are the ordered client ids). -/
abbrev Registry := List (String × ClientState)

/-- `clients_.find(id)`: first value bound to `id`. -/
def lookupC (r : Registry) (id : String) : Option ClientState :=
  match r with
  | [] => none
  | (k, c) :: rest => if k = id then some c else lookupC rest id

/-- In-place mutation of one client's CCB through its shared pointer. -/
def updateC (r : Registry) (id : String) (f : ClientState → ClientState) : Registry :=
  match r with
  | [] => []
  | (k, c) :: rest =>
      if k = id then (k, f c) :: rest else (k, c) :: updateC rest id f

/-- The deficit map `std::unordered_map<std::string, int64_t> deficit_`. -/
abbrev DeficitMap := List (String × Int)

/-- `deficit_[id]` read access; `operator[]` default-constructs `0` for absent keys. -/
def getDef (m : DeficitMap) (id : String) : Int :=
  match m with
  | [] => 0
  | (k, v) :: rest => if k = id then v else getDef rest id

/-- `deficit_[id] = v` write access (insert or overwrite). -/
def setDef (m : DeficitMap) (id : String) (v : Int) : DeficitMap :=
  match m with
  | [] => [(id, v)]
  | (k, w) :: rest => if k = id then (k, v) :: rest else (k, w) :: setDef rest id v

/-- Scheduler-owned state from scheduler.h: the registry (map + order), the monotonic
job-id ticket and the global processed counter.  The policy's private state is kept
separately (`DRRState` below), mirroring `policy_`. -/
structure SchedulerState where
  clients : Registry
  next_job_id : Nat
  total_processed : Nat
deriving DecidableEq, Repr

/-- `client_order_`: the registration-ordered id sequence (the registry's key list). -/
def SchedulerState.client_order (s : SchedulerState) : List String :=
  s.clients.map Prod.fst

/-- The freshly constructed scheduler: empty registry, `next_job_id_{1}`. -/
def initScheduler : SchedulerState :=
  { clients := [], next_job_id := 1, total_processed := 0 }

/-- `Scheduler::register_client` (scheduler.cpp:18-34), parametric in the policy state
`σ` and its `on_client_registered` callback.  The outcome is paired with the scheduler
and policy state as of the return/throw point: both error throws happen before any
mutation, so those components are the inputs unchanged. -/
def register_client {σ : Type} (s : SchedulerState) (p : σ)
    (onReg : String → Nat → σ → σ) (client_id : String) (weight : Nat)
    (max_queue_depth : Nat) (strategy : OverflowStrategy) :
    Except SchedError Unit × SchedulerState × σ :=
  if weight = 0 then
    (.error .InvalidArgument, s, p)
  else if (lookupC s.clients client_id).isSome then
    (.error .AlreadyRegistered, s, p)
  else
    (.ok (),
     { s with
        clients := s.clients ++
          [(client_id, mkClientState client_id weight max_queue_depth strategy)] },
     onReg client_id weight p)

/-- Outcome of `Scheduler::submit`: normal return, a thrown error, or a wait on the
CCB condition variable (`BLOCK` at capacity) that has not yet completed.  Every
constructor carries the scheduler state as of that point. -/
inductive SubmitResult where
  | ok (s : SchedulerState)
  | err (e : SchedError) (s : SchedulerState)
  | blocked (s : SchedulerState)
deriving DecidableEq, Repr

/-- The state carried by a `SubmitResult`. -/
def SubmitResult.state : SubmitResult → SchedulerState
  | .ok s => s
  | .err _ s => s
  | .blocked s => s

/-- Whether a `SubmitResult` is a normal (admitting or silently dropping) return. -/
def SubmitResult.isOk : SubmitResult → Bool
  | .ok _ => true
  | .err _ _ => false
  | .blocked _ => false

/-- `Scheduler::submit` (scheduler.cpp:36-89).  The job id ticket is consumed before
the strategy switch (line 50); `submitted_count` is incremented only on the paths
that reach the final `push_back`/`fetch_add` (lines 86-88): a `REJECT` throw and a
`DROP_NEWEST` early return skip it. -/
def submit (s : SchedulerState) (client_id : String) (cost_hint : Nat) : SubmitResult :=
  match lookupC s.clients client_id with
  | none => .err .UnknownClient s
  | some c =>
    let job : Job := { client_id := client_id, job_id := s.next_job_id,
                       cost_hint := cost_hint }
    let s := { s with next_job_id := s.next_job_id + 1 }
    let push : SchedulerState → SubmitResult := fun s0 =>
      .ok { s0 with clients := updateC s0.clients client_id (fun c0 =>
              { c0 with queue := c0.queue ++ [job],
                        submitted_count := c0.submitted_count + 1 }) }
    if c.max_queue_depth > 0 then
      match c.overflow_strategy with
      | .REJECT =>
        if c.queue.length ≥ c.max_queue_depth then
          .err .QueueFull { s with clients := updateC s.clients client_id (fun c0 =>
              { c0 with overflow_count := c0.overflow_count + 1,
                        dropped_incoming := c0.dropped_incoming + 1 }) }
        else push s
      | .BLOCK =>
        if c.queue.length ≥ c.max_queue_depth then .blocked s
        else push s
      | .DROP_OLDEST =>
        if c.queue.length ≥ c.max_queue_depth then
          push { s with clients := updateC s.clients client_id (fun c0 =>
              { c0 with queue := c0.queue.tail,
                        overflow_count := c0.overflow_count + 1 }) }
        else push s
      | .DROP_NEWEST =>
        if c.queue.length ≥ c.max_queue_depth then
          .ok { s with clients := updateC s.clients client_id (fun c0 =>
              { c0 with overflow_count := c0.overflow_count + 1,
                        dropped_incoming := c0.dropped_incoming + 1 }) }
        else push s
    else push s

/-- `Scheduler::submit` performs no worker notification: the body of
scheduler.cpp:36-89 contains no call to `ThreadPool::notify_workers` (nor any other
condition-variable notification); the scheduler holds no reference to a pool, and the
repository's tests and examples call `pool.notify_workers()` themselves after
`submit` returns.  (thread_pool.h nevertheless documents `notify_workers` as "Called
by Scheduler::submit to wake a worker".) -/
def submit_notifies_worker (_s : SchedulerState) (_client_id : String)
    (_cost_hint : Nat) : Bool := false

/-- `Scheduler::record_execution` (scheduler.cpp:166-176): silently ignores unknown
ids; otherwise bumps the client's `executed_count` and `total_execution_time_us` and
the global `total_processed_`. -/
def record_execution (s : SchedulerState) (client_id : String) (duration_us : Nat) :
    SchedulerState :=
  match lookupC s.clients client_id with
  | none => s
  | some _ =>
      { s with
        clients := updateC s.clients client_id (fun c =>
          { c with executed_count := c.executed_count + 1,
                   total_execution_time_us := c.total_execution_time_us + duration_us }),
        total_processed := s.total_processed + 1 }

/-- `Scheduler::has_pending_jobs` (scheduler.cpp:178-185). -/
def has_pending_jobs (s : SchedulerState) : Bool :=
  s.clients.any (fun kc => !kc.2.queue.isEmpty)

/-! ### Deficit Round Robin policy (src/unnamed/part_000, drr_policy.cpp) -/

/-- Private state of `DeficitRoundRobinPolicy` (drr_policy.h): the constructor
parameter `base_quantum_` (default 100), the cursor `drr_index_` and the credit
counters `deficit_`. -/
structure DRRState where
  base_quantum : Nat
  drr_index : Nat
  deficit : DeficitMap
deriving DecidableEq, Repr

/-- `DeficitRoundRobinPolicy(base_quantum)` with fresh cursor and empty deficit map. -/
def initDRR (base_quantum : Nat) : DRRState :=
  { base_quantum := base_quantum, drr_index := 0, deficit := [] }

/-- `DeficitRoundRobinPolicy::on_client_registered`: `deficit_[client_id] = 0`. -/
def DeficitRoundRobinPolicy.on_client_registered (client_id : String) (_weight : Nat)
    (p : DRRState) : DRRState :=
  { p with deficit := setDef p.deficit client_id 0 }

/-- Result of one policy scan: the selected job (if any), the registry after the
dequeue, the cursor and the deficit map after the scan. -/
structure ScanOut where
  job : Option Job
  clients : Registry
  idx : Nat
  deficit : DeficitMap
deriving DecidableEq, Repr

/-- The scan loop of `DeficitRoundRobinPolicy::select_next_job` (part_000 lines
20-53), with the remaining iteration count (`n - scanned`) as explicit fuel.
An id absent from the registry would make `clients.at` throw; the embedding
returns `none` there (unreachable when order and registry agree). -/
def drrScan (order : List String) (quantum : Nat) :
    Registry → DeficitMap → Nat → Nat → ScanOut
  | clients, deficit, idx, 0 => ⟨none, clients, idx, deficit⟩
  | clients, deficit, idx, fuel + 1 =>
    let n := order.length
    let current := order.getD idx ""
    match lookupC clients current with
    | none => ⟨none, clients, idx, deficit⟩
    | some c =>
      match c.queue with
      | [] =>
          drrScan order quantum clients (setDef deficit current 0) ((idx + 1) % n) fuel
      | job :: _ =>
          let d0 := getDef deficit current
          let d1 := if d0 ≤ 0 then d0 + ((c.weight * quantum : Nat) : Int) else d0
          let d2 := d1 - (job.cost_hint : Int)
          let idx' := if d2 ≤ 0 then (idx + 1) % n else idx
          ⟨some job,
           updateC clients current (fun c0 => { c0 with queue := c0.queue.tail }),
           idx', setDef deficit current d2⟩

/-- `DeficitRoundRobinPolicy::select_next_job`: scan up to `n = order.length`
clients starting at the cursor. -/
def DeficitRoundRobinPolicy.select_next_job (p : DRRState) (order : List String)
    (clients : Registry) : Option Job × Registry × DRRState :=
  let out := drrScan order p.base_quantum clients p.deficit p.drr_index order.length
  (out.job, out.clients, { p with drr_index := out.idx, deficit := out.deficit })

/-- `Scheduler::select_next_job` (scheduler.cpp:91-96) with the DRR policy active:
empty order short-circuits to `none`, otherwise delegate to the policy with
`(client_order_, clients_)`. -/
def select_next_job (s : SchedulerState) (p : DRRState) :
    Option Job × SchedulerState × DRRState :=
  if s.client_order.isEmpty then (none, s, p)
  else
    let (j, clients', p') :=
      DeficitRoundRobinPolicy.select_next_job p s.client_order s.clients
    (j, { s with clients := clients' }, p')

/-! ### Weighted Round Robin policy

The repository ships only the declaration of `WeightedRoundRobinPolicy`
(include/job_system/wrr_policy.h: private `rr_index_`, `rr_remaining_`); its
implementation file is not under src.  The algorithm below is therefore modelled
from the spec. -/

/-- Private state of `WeightedRoundRobinPolicy` (wrr_policy.h): cursor `rr_index_`
and remaining-slot counter `rr_remaining_`, both starting at 0. -/
structure WRRState where
  rr_index : Nat
  rr_remaining : Nat
deriving DecidableEq, Repr

/-- Result of one WRR scan. -/
structure WrrOut where
  job : Option Job
  clients : Registry
  idx : Nat
  rem : Nat
deriving DecidableEq, Repr

/-- Modelled from the spec: the scan loop of `WeightedRoundRobinPolicy::select_next_job`,
whose implementation file is missing from src (only wrr_policy.h declares it).
Spec §4.3.1: scan up to `n` clients from `rr_index`; lazily refill
`rr_remaining` from the current client's weight when it is 0; if the current queue
is non-empty pop its front, decrement `rr_remaining` and advance the cursor (mod `n`)
when it hits 0; if the queue is empty, zero `rr_remaining`, advance and continue;
after a full fruitless scan return none. -/
def wrrScan (order : List String) : Registry → Nat → Nat → Nat → WrrOut
  | clients, idx, rem, 0 => ⟨none, clients, idx, rem⟩
  | clients, idx, rem, fuel + 1 =>
    let n := order.length
    let current := order.getD idx ""
    match lookupC clients current with
    | none => ⟨none, clients, idx, rem⟩
    | some c =>
      let rem' := if rem = 0 then c.weight else rem
      match c.queue with
      | [] => wrrScan order clients ((idx + 1) % n) 0 fuel
      | job :: _ =>
          let rem'' := rem' - 1
          let idx' := if rem'' = 0 then (idx + 1) % n else idx
          ⟨some job,
           updateC clients current (fun c0 => { c0 with queue := c0.queue.tail }),
           idx', rem''⟩

/-- Modelled from the spec: `WeightedRoundRobinPolicy::select_next_job` scans up to
`n = order.length` clients starting at the cursor. -/
def WeightedRoundRobinPolicy.select_next_job (p : WRRState) (order : List String)
    (clients : Registry) : Option Job × Registry × WRRState :=
  let out := wrrScan order clients p.rr_index p.rr_remaining order.length
  (out.job, out.clients, { rr_index := out.idx, rr_remaining := out.rem })

/-- Repeated single-worker `select_next_job` calls against the WRR policy,
collecting the dispatched jobs in order. -/
def wrrRun (order : List String) : Nat → Registry → WRRState → List Job × Registry × WRRState
  | 0, clients, p => ([], clients, p)
  | k + 1, clients, p =>
    let (j, clients', p') := WeightedRoundRobinPolicy.select_next_job p order clients
    let (l, clients'', p'') := wrrRun order k clients' p'
    (j.toList ++ l, clients'', p'')

/-- Repeated single-worker `select_next_job` calls against the DRR policy,
collecting the dispatched jobs in order. -/
def drrRun (order : List String) : Nat → Registry → DRRState → List Job × Registry × DRRState
  | 0, clients, p => ([], clients, p)
  | k + 1, clients, p =>
    let (j, clients', p') := DeficitRoundRobinPolicy.select_next_job p order clients
    let (l, clients'', p'') := drrRun order k clients' p'
    (j.toList ++ l, clients'', p'')

/-! ### Plain round robin (reference for the DRR degeneration claim) -/

/-- Reference arbiter written from the spec's words "strict round-robin with one slot
per client per cycle": scan from the cursor, skip empty clients, pop the head of the
first non-empty one and advance the cursor past it. -/
def rrScan (order : List String) : Registry → Nat → Nat → Option Job × Registry × Nat
  | clients, idx, 0 => (none, clients, idx)
  | clients, idx, fuel + 1 =>
    let n := order.length
    let current := order.getD idx ""
    match lookupC clients current with
    | none => (none, clients, idx)
    | some c =>
      match c.queue with
      | [] => rrScan order clients ((idx + 1) % n) fuel
      | job :: _ =>
          (some job,
           updateC clients current (fun c0 => { c0 with queue := c0.queue.tail }),
           (idx + 1) % n)

/-- One plain round-robin selection: scan up to `n` clients from the cursor. -/
def rrSelect (order : List String) (clients : Registry) (idx : Nat) :
    Option Job × Registry × Nat :=
  rrScan order clients idx order.length

/-- Repeated plain round-robin selections, collecting the dispatched jobs. -/
def rrRun (order : List String) : Nat → Registry → Nat → List Job × Registry × Nat
  | 0, clients, idx => ([], clients, idx)
  | k + 1, clients, idx =>
    let (j, clients', idx') := rrSelect order clients idx
    let (l, clients'', idx'') := rrRun order k clients' idx'
    (j.toList ++ l, clients'', idx'')

/-! ### Metrics (scheduler.cpp:98-160) -/

/-- `Scheduler::ClientMetrics`; the average is exact rational arithmetic in place of
the source's IEEE double (the branch structure is what the claims are about). -/
structure ClientMetrics where
  submitted : Nat
  executed : Nat
  avg_execution_time_us : ℚ
  queue_depth : Nat
  weight : Nat
  overflow_count : Nat
deriving DecidableEq, Repr

/-- `Scheduler::get_client_metrics` (scheduler.cpp:98-129): throws on unknown ids;
`avg_execution_time_us` is `total / executed` guarded by `executed > 0`. -/
def get_client_metrics (s : SchedulerState) (client_id : String) :
    Except SchedError ClientMetrics :=
  match lookupC s.clients client_id with
  | none => .error .UnknownClient
  | some c =>
      .ok { submitted := c.submitted_count
            executed := c.executed_count
            avg_execution_time_us :=
              if c.executed_count > 0 then
                (c.total_execution_time_us : ℚ) / (c.executed_count : ℚ)
              else 0
            queue_depth := c.queue.length
            weight := c.weight
            overflow_count := c.overflow_count }

/-- `Scheduler::GlobalMetrics`; the Jain index is exact rational arithmetic in place
of the source's IEEE double. -/
structure GlobalMetrics where
  total_processed : Nat
  active_clients : Nat
  jain_fairness_index : ℚ
deriving DecidableEq, Repr

/-- `Scheduler::get_global_metrics` (scheduler.cpp:131-160): `n < 2` short-circuits
the index to 1; otherwise one pass accumulates `Σ xᵢ` and `Σ xᵢ²` over the clients'
executed counts, and a zero `Σ xᵢ²` also yields 1. -/
def get_global_metrics (s : SchedulerState) : GlobalMetrics :=
  let n := s.clients.length
  if n < 2 then
    { total_processed := s.total_processed, active_clients := n,
      jain_fairness_index := 1 }
  else
    let acc := s.clients.foldl
      (fun (a : ℚ × ℚ) kc =>
        let x : ℚ := (kc.2.executed_count : ℚ)
        (a.1 + x, a.2 + x * x)) (0, 0)
    if acc.2 = 0 then
      { total_processed := s.total_processed, active_clients := n,
        jain_fairness_index := 1 }
    else
      { total_processed := s.total_processed, active_clients := n,
        jain_fairness_index := (acc.1 * acc.1) / ((n : ℚ) * acc.2) }

/-! ### Sequential execution traces

A quiescent-point trace: operations applied one after the other, a worker's
`select_next_job` + execution + `record_execution` fused into one `execute` step
(between steps no job is in flight, which is exactly global quiescence). -/

/-- One serialized API event against a scheduler running the DRR policy. -/
inductive Op where
  | register (id : String) (weight max_depth : Nat) (strategy : OverflowStrategy)
  | submit (id : String) (cost_hint : Nat)
  | execute (duration_us : Nat)
deriving DecidableEq, Repr

/-- Apply one event: failed calls leave the state as the throw point left it; an
`execute` with no job available is a pure policy-state step. -/
def applyOp (sp : SchedulerState × DRRState) : Op → SchedulerState × DRRState
  | .register id w depth strat =>
      (register_client sp.1 sp.2 DeficitRoundRobinPolicy.on_client_registered
          id w depth strat).2
  | .submit id cost => ((submit sp.1 id cost).state, sp.2)
  | .execute dur =>
      let (j, s, p) := select_next_job sp.1 sp.2
      match j with
      | none => (s, p)
      | some job => (record_execution s job.client_id dur, p)

/-- Run a trace from the fresh scheduler with a DRR policy of the given quantum. -/
def runOps (base_quantum : Nat) (ops : List Op) : SchedulerState × DRRState :=
  ops.foldl applyOp (initScheduler, initDRR base_quantum)

/-- `Σ wᵢ` over a registry, in registration order. -/
def totalW (clients : Registry) : Nat :=
  (clients.map (fun kc => kc.2.weight)).sum

/-- The WRR determinism target: `w₁` jobs of `c₁`, then `w₂` jobs of `c₂`, …, each
client's segment being the FIFO prefix of its own queue. -/
def wrrExpected (clients : Registry) : List Job :=
  (clients.map (fun kc => kc.2.queue.take kc.2.weight)).flatten

/-- The per-client counting identity: `submitted_count` plus the ghost count of
never-enqueued overflow events equals `executed_count + overflow_count +
queue_depth`.  (The spec's identity without the ghost term fails under `REJECT` /
`DROP_NEWEST` overflows.) -/
def acctOk (c : ClientState) : Prop :=
  c.submitted_count + c.dropped_incoming
    = c.executed_count + c.overflow_count + c.queue.length

/-- Every job sitting in this client's queue names the client. -/
def ownedOk (id : String) (c : ClientState) : Prop :=
  ∀ j ∈ c.queue, j.client_id = id

/-- The counting identity holds for every registered client. -/
def AcctInv (s : SchedulerState) : Prop :=
  ∀ id c, lookupC s.clients id = some c → acctOk c

/-- The DRR deficit bound: every registered client's credit counter is at most
`weight × base_quantum`. -/
def DefInv (sp : SchedulerState × DRRState) : Prop :=
  ∀ id c, lookupC sp.1.clients id = some c →
    getDef sp.2.deficit id ≤ ((c.weight * sp.2.base_quantum : Nat) : Int)

/-- Queue ownership holds for every registered client (what lets
`record_execution job.client_id` credit the right CCB). -/
def OwnedInv (s : SchedulerState) : Prop :=
  ∀ id c, lookupC s.clients id = some c → ownedOk id c

/-! ### Small concrete states used to instantiate the theorems -/

/-- A client `"a"` with `max_queue_depth = 1`, strategy `REJECT`, holding one job. -/
def sampleRejectClient : ClientState :=
  { mkClientState "a" 1 1 .REJECT with queue := [⟨"a", 1, 1⟩], submitted_count := 1 }

/-- A scheduler whose only client is `sampleRejectClient` (its queue at capacity). -/
def sampleRejectState : SchedulerState :=
  { clients := [("a", sampleRejectClient)], next_job_id := 2, total_processed := 0 }

/-- A scheduler with a single freshly registered unlimited-queue client `"a"`. -/
def oneClientState : SchedulerState :=
  { clients := [("a", mkClientState "a" 1 0 .REJECT)],
    next_job_id := 1, total_processed := 0 }

/-- A scheduler with a single freshly registered unlimited-queue client `"alice"`. -/
def aliceState : SchedulerState :=
  { clients := [("alice", mkClientState "alice" 1 0 .REJECT)],
    next_job_id := 1, total_processed := 0 }

/-- Three clients in registration order `A`(w=3), `B`(w=1), `C`(w=2), each pre-filled
with exactly its weight in jobs (the spec's WRR scenario). -/
def wrrDemoRegistry : Registry :=
  [("A", { mkClientState "A" 3 0 .REJECT with
            queue := [⟨"A", 1, 1⟩, ⟨"A", 2, 1⟩, ⟨"A", 3, 1⟩] }),
   ("B", { mkClientState "B" 1 0 .REJECT with queue := [⟨"B", 4, 1⟩] }),
   ("C", { mkClientState "C" 2 0 .REJECT with queue := [⟨"C", 5, 1⟩, ⟨"C", 6, 1⟩] })]

/-- Two unit-weight clients with two unit-cost queued jobs each. -/
def unitRegistry : Registry :=
  [("A", { mkClientState "A" 1 0 .REJECT with queue := [⟨"A", 1, 1⟩, ⟨"A", 2, 1⟩] }),
   ("B", { mkClientState "B" 1 0 .REJECT with queue := [⟨"B", 3, 1⟩, ⟨"B", 4, 1⟩] })]

/-- A scheduler with clients `"a"` (idle) and `"b"` (one queued job). -/
def twoClientState : SchedulerState :=
  { clients := [("a", mkClientState "a" 1 0 .REJECT),
                ("b", { mkClientState "b" 1 0 .REJECT with queue := [⟨"b", 1, 1⟩] })]
    next_job_id := 2
    total_processed := 0 }

/-! ## Helper lemmas: registry association lists and deficit maps -/

theorem lookupC_updateC_self (r : Registry) (id : String)
    (f : ClientState → ClientState) :
    lookupC (updateC r id f) id = (lookupC r id).map f := by
  induction r with
  | nil => rfl
  | cons kc rest ih =>
      obtain ⟨k, c⟩ := kc
      by_cases h : k = id <;> simp [updateC, lookupC, h, ih]

theorem lookupC_updateC_ne (r : Registry) (id id' : String) (h : id' ≠ id)
    (f : ClientState → ClientState) :
    lookupC (updateC r id f) id' = lookupC r id' := by
  induction r with
  | nil => rfl
  | cons kc rest ih =>
      obtain ⟨k, c⟩ := kc
      by_cases hk : k = id
      · subst hk
        have hne : ¬ k = id' := fun hkk => h (hkk ▸ rfl)
        simp [updateC, lookupC, hne]
      · by_cases hk' : k = id' <;> simp [updateC, lookupC, hk, hk', ih, h]

theorem updateC_map_fst (r : Registry) (id : String) (f : ClientState → ClientState) :
    (updateC r id f).map Prod.fst = r.map Prod.fst := by
  induction r with
  | nil => rfl
  | cons kc rest ih =>
      obtain ⟨k, c⟩ := kc
      by_cases h : k = id <;> simp [updateC, h, ih]

theorem lookupC_append_of_none (r r' : Registry) (k : String)
    (h : lookupC r k = none) : lookupC (r ++ r') k = lookupC r' k := by
  induction r with
  | nil => rfl
  | cons kc rest ih =>
      obtain ⟨k0, c0⟩ := kc
      by_cases hk : k0 = k
      · simp [lookupC, hk] at h
      · simp only [lookupC, hk, if_neg hk, List.cons_append] at h ⊢
        exact ih h

theorem lookupC_append_of_some (r r' : Registry) (k : String) (c : ClientState)
    (h : lookupC r k = some c) : lookupC (r ++ r') k = some c := by
  induction r with
  | nil => simp [lookupC] at h
  | cons kc rest ih =>
      obtain ⟨k0, c0⟩ := kc
      by_cases hk : k0 = k <;>
        simp only [lookupC, hk, if_pos, if_neg, List.cons_append] at h ⊢
      · exact h
      · simpa [lookupC, hk] using ih h

theorem lookupC_eq_none_iff (r : Registry) (k : String) :
    lookupC r k = none ↔ k ∉ r.map Prod.fst := by
  induction r with
  | nil => simp [lookupC]
  | cons kc rest ih =>
      obtain ⟨k0, c0⟩ := kc
      by_cases hk : k0 = k
      · subst hk; simp [lookupC]
      · have hk2 : ¬ k = k0 := fun hx => hk hx.symm
        simp [lookupC, hk, hk2, ih]

theorem lookupC_mem (r : Registry) (k : String) (c : ClientState)
    (h : lookupC r k = some c) : (k, c) ∈ r := by
  induction r with
  | nil => simp [lookupC] at h
  | cons kc rest ih =>
      obtain ⟨k0, c0⟩ := kc
      by_cases hk : k0 = k
      · subst hk
        simp [lookupC] at h
        subst h; exact List.mem_cons_self _ _
      · simp only [lookupC, if_neg hk] at h
        exact List.mem_cons_of_mem _ (ih h)

theorem lookupC_of_mem_nodup (r : Registry) (k : String) (c : ClientState)
    (hnd : (r.map Prod.fst).Nodup) (h : (k, c) ∈ r) : lookupC r k = some c := by
  induction r with
  | nil => simp at h
  | cons kc rest ih =>
      obtain ⟨k0, c0⟩ := kc
      simp only [List.map_cons, List.nodup_cons] at hnd
      rcases List.mem_cons.mp h with heq | hmem
      · obtain ⟨rfl, rfl⟩ := Prod.mk.injEq .. ▸ heq
        simp [lookupC]
      · have hk : k0 ≠ k := by
          rintro rfl
          exact hnd.1 (List.mem_map.mpr ⟨(k0, c), hmem, rfl⟩)
        simp only [lookupC, if_neg hk]
        exact ih hnd.2 hmem

theorem getDef_setDef_self (m : DeficitMap) (k : String) (v : Int) :
    getDef (setDef m k v) k = v := by
  induction m with
  | nil => simp [setDef, getDef]
  | cons kv rest ih =>
      obtain ⟨k0, v0⟩ := kv
      by_cases h : k0 = k <;> simp [setDef, getDef, h, ih]

theorem getDef_setDef_ne (m : DeficitMap) (k k' : String) (v : Int) (h : k' ≠ k) :
    getDef (setDef m k v) k' = getDef m k' := by
  induction m with
  | nil =>
      have : ¬ k = k' := fun hk => h hk.symm
      simp [setDef, getDef, this]
  | cons kv rest ih =>
      obtain ⟨k0, v0⟩ := kv
      by_cases hk : k0 = k
      · subst hk
        have : ¬ k0 = k' := fun hk => h hk.symm
        simp [setDef, getDef, this]
      · by_cases hk' : k0 = k' <;> simp [setDef, getDef, hk, hk', ih, h]

/-! ## C6 — REJECT backpressure -/

/-- C6: for every client configured with `max_queue_depth > 0` and strategy `REJECT`
whose queue is at capacity, `submit` increments that client's `overflow_count` by
exactly one, fails with `QueueFull`, and leaves the client's queue contents (and every
other client's entry) unchanged. -/
theorem reject_overflow_fails_queue_unchanged (s : SchedulerState) (id : String)
    (c : ClientState) (cost : Nat)
    (hc : lookupC s.clients id = some c)
    (hdepth : 0 < c.max_queue_depth)
    (hstrat : c.overflow_strategy = OverflowStrategy.REJECT)
    (hfull : c.max_queue_depth ≤ c.queue.length) :
    ∃ s', submit s id cost = .err .QueueFull s'
      ∧ lookupC s'.clients id =
          some { c with
                  overflow_count := c.overflow_count + 1
                  dropped_incoming := c.dropped_incoming + 1 }
      ∧ (∀ id', id' ≠ id → lookupC s'.clients id' = lookupC s.clients id') := by
  refine ⟨{ s with
              next_job_id := s.next_job_id + 1
              clients := updateC s.clients id (fun c0 =>
                { c0 with
                    overflow_count := c0.overflow_count + 1
                    dropped_incoming := c0.dropped_incoming + 1 }) }, ?_, ?_, ?_⟩
  · simp [submit, hc, hstrat, hdepth, hfull]
  · rw [lookupC_updateC_self, hc]
    rfl
  · intro id' hne
    exact lookupC_updateC_ne _ _ _ hne _

/-- Concrete instantiation of `reject_overflow_fails_queue_unchanged` on
`sampleRejectState` (client `"a"`, `max_queue_depth = 1`, queue already full). -/
theorem reject_overflow_fails_queue_unchanged_witness :
    (lookupC sampleRejectState.clients "a" = some sampleRejectClient
      ∧ 0 < sampleRejectClient.max_queue_depth
      ∧ sampleRejectClient.overflow_strategy = OverflowStrategy.REJECT
      ∧ sampleRejectClient.max_queue_depth ≤ sampleRejectClient.queue.length)
    ∧ (∃ s', submit sampleRejectState "a" 1 = .err .QueueFull s'
        ∧ lookupC s'.clients "a" =
            some { sampleRejectClient with
                    overflow_count := sampleRejectClient.overflow_count + 1
                    dropped_incoming := sampleRejectClient.dropped_incoming + 1 }
        ∧ (∀ id', id' ≠ "a" →
            lookupC s'.clients id' = lookupC sampleRejectState.clients id')) :=
  ⟨⟨by decide, by decide, by decide, by decide⟩,
   reject_overflow_fails_queue_unchanged sampleRejectState "a" sampleRejectClient 1
     (by decide) (by decide) (by decide) (by decide)⟩

/-! ## C8 — duplicate registration is rejected atomically -/

/-- C8: when `client_id` is already registered, a second `register_client` with the
call's admissible arguments (nonzero weight — `register_client(x)` defaults to
weight 1) returns `AlreadyRegistered` and leaves the registry mapping, the ordered
client sequence, every CCB, and the policy's private state untouched: the returned
scheduler and policy states are exactly the inputs.  (A duplicate call with
`weight == 0` instead hits the earlier `InvalidArgument` guard, likewise before any
mutation.) -/
theorem duplicate_register_no_mutation {σ : Type} (s : SchedulerState) (p : σ)
    (onReg : String → Nat → σ → σ) (id : String) (w depth : Nat)
    (strat : OverflowStrategy)
    (hw : w ≠ 0)
    (hreg : (lookupC s.clients id).isSome = true) :
    register_client s p onReg id w depth strat = (.error .AlreadyRegistered, s, p) := by
  simp [register_client, hw, hreg]

/-- Concrete instantiation of `duplicate_register_no_mutation`: re-registering `"a"`
on `oneClientState` with the DRR policy callback. -/
theorem duplicate_register_no_mutation_witness :
    ((1 : Nat) ≠ 0 ∧ (lookupC oneClientState.clients "a").isSome = true)
    ∧ register_client oneClientState (initDRR 100)
        DeficitRoundRobinPolicy.on_client_registered "a" 1 0 .REJECT
      = (.error .AlreadyRegistered, oneClientState, initDRR 100) :=
  ⟨⟨by decide, by decide⟩,
   duplicate_register_no_mutation oneClientState (initDRR 100)
     DeficitRoundRobinPolicy.on_client_registered "a" 1 0 .REJECT
     (by decide) (by decide)⟩

/-! ## C10 — average execution time is division-safe -/

/-- C10: for every registered client, `get_client_metrics` returns
`avg_execution_time_us = 0` when the executed count is zero, and the exact quotient
`total_execution_time_us / executed_count` otherwise; the product form witnesses that
the divisor is the nonzero executed count, so no division by zero occurs. -/
theorem avg_execution_time_division_safe (s : SchedulerState) (id : String)
    (c : ClientState) (hc : lookupC s.clients id = some c) :
    ∃ m, get_client_metrics s id = .ok m
      ∧ (c.executed_count = 0 → m.avg_execution_time_us = 0)
      ∧ (c.executed_count ≠ 0 →
           m.avg_execution_time_us =
             (c.total_execution_time_us : ℚ) / (c.executed_count : ℚ)
           ∧ m.avg_execution_time_us * (c.executed_count : ℚ) =
             (c.total_execution_time_us : ℚ)) := by
  refine ⟨{ submitted := c.submitted_count
            executed := c.executed_count
            avg_execution_time_us :=
              if 0 < c.executed_count then
                (c.total_execution_time_us : ℚ) / (c.executed_count : ℚ)
              else 0
            queue_depth := c.queue.length
            weight := c.weight
            overflow_count := c.overflow_count }, ?_, ?_, ?_⟩
  · simp [get_client_metrics, hc]
  · intro h
    simp [h]
  · intro h
    have hpos : 0 < c.executed_count := Nat.pos_of_ne_zero h
    have hcast : ((c.executed_count : ℚ)) ≠ 0 := by exact_mod_cast h
    refine ⟨by simp [hpos], ?_⟩
    simp only [hpos, if_pos]
    exact div_mul_cancel₀ _ hcast

/-- Concrete instantiation of `avg_execution_time_division_safe` on a client with
zero executions. -/
theorem avg_execution_time_division_safe_witness :
    (lookupC oneClientState.clients "a" = some (mkClientState "a" 1 0 .REJECT))
    ∧ ∃ m, get_client_metrics oneClientState "a" = .ok m
      ∧ ((mkClientState "a" 1 0 .REJECT).executed_count = 0 →
            m.avg_execution_time_us = 0)
      ∧ ((mkClientState "a" 1 0 .REJECT).executed_count ≠ 0 →
           m.avg_execution_time_us =
             (((mkClientState "a" 1 0 .REJECT).total_execution_time_us : ℚ))
               / (((mkClientState "a" 1 0 .REJECT).executed_count : ℚ))
           ∧ m.avg_execution_time_us
               * (((mkClientState "a" 1 0 .REJECT).executed_count : ℚ)) =
             (((mkClientState "a" 1 0 .REJECT).total_execution_time_us : ℚ))) :=
  ⟨by decide, avg_execution_time_division_safe oneClientState "a" _ (by decide)⟩

/-! ## C2 — submit performs no worker notification (code bug) -/

/-- C2 (divergence): an admitting `submit` on a scheduler with one registered client
succeeds and enqueues the job, yet notifies no waiting worker: the source of
`Scheduler::submit` contains no notification call (the thread-pool header documents
`notify_workers()` as "Called by Scheduler::submit to wake a worker", and the
repository's tests and examples each call `pool.notify_workers()` manually after
submitting). -/
theorem submit_admits_without_worker_notification :
    ((submit aliceState "alice" 1).isOk = true)
    ∧ ((lookupC (submit aliceState "alice" 1).state.clients "alice").map
          (fun c => c.queue.length) = some 1)
    ∧ submit_notifies_worker aliceState "alice" 1 = false :=
  ⟨rfl, rfl, rfl⟩

/-! ## C7 — Jain fairness index -/

/-- The metrics pass accumulating `(Σ xᵢ, Σ xᵢ²)` equals the two mapped sums. -/
theorem foldl_sum_sq (l : List (String × ClientState)) (a b : ℚ) :
    l.foldl (fun (acc : ℚ × ℚ) kc =>
        (acc.1 + ((kc.2.executed_count : ℚ)),
         acc.2 + ((kc.2.executed_count : ℚ)) * ((kc.2.executed_count : ℚ)))) (a, b)
      = (a + (l.map (fun kc => ((kc.2.executed_count : ℚ)))).sum,
         b + (l.map (fun kc =>
             ((kc.2.executed_count : ℚ)) * ((kc.2.executed_count : ℚ)))).sum) := by
  induction l generalizing a b with
  | nil => simp
  | cons kc rest ih => simp [ih, add_assoc]

/-- C7: `get_global_metrics` returns a Jain index equal to
`(Σ xᵢ)² / (n · Σ xᵢ²)` over the per-client executed counts `xᵢ` with `n` registered
clients, and exactly `1` whenever `n < 2` or `Σ xᵢ²` is zero (exact rational
arithmetic standing in for the source's IEEE doubles). -/
theorem jain_fairness_index_formula (s : SchedulerState) :
    (get_global_metrics s).jain_fairness_index =
      if s.clients.length < 2
          ∨ (s.clients.map (fun kc =>
              ((kc.2.executed_count : ℚ)) * ((kc.2.executed_count : ℚ)))).sum = 0
      then 1
      else ((s.clients.map (fun kc => ((kc.2.executed_count : ℚ)))).sum
              * (s.clients.map (fun kc => ((kc.2.executed_count : ℚ)))).sum)
             / ((s.clients.length : ℚ)
                * (s.clients.map (fun kc =>
                    ((kc.2.executed_count : ℚ)) * ((kc.2.executed_count : ℚ)))).sum) := by
  unfold get_global_metrics
  by_cases h2 : s.clients.length < 2
  · simp [h2]
  · have hfold := foldl_sum_sq s.clients 0 0
    rw [Prod.mk_zero_zero] at hfold
    simp only [zero_add] at hfold
    simp only [if_neg h2, hfold]
    by_cases hz : (s.clients.map (fun kc =>
        ((kc.2.executed_count : ℚ)) * ((kc.2.executed_count : ℚ)))).sum = 0
    · simp [hz, h2, hfold]
    · simp [hz, h2, hfold]

/-! ## C1 — the per-client counting identity (corrected) -/

/-- C1 (counterexample): `submitted_count == executed_count + overflow_count +
queue_depth` fails once a `REJECT` overflow has occurred.  Trace: register `"a"`
with `max_queue_depth = 1` and `REJECT`; submit twice (the second submission
overflows); execute the one queued job.  The final state is quiescent
(`has_pending_jobs` is false) yet `submitted = 1` while
`executed + overflow + depth = 2`: the rejected submission incremented
`overflow_count` but never `submitted_count`. -/
theorem submitted_identity_cex :
    has_pending_jobs (runOps 100 [.register "a" 1 1 .REJECT, .submit "a" 1,
        .submit "a" 1, .execute 0]).1 = false
    ∧ ¬ (∀ kc ∈ (runOps 100 [.register "a" 1 1 .REJECT, .submit "a" 1,
          .submit "a" 1, .execute 0]).1.clients,
           kc.2.submitted_count =
             kc.2.executed_count + kc.2.overflow_count + kc.2.queue.length) := by
  constructor
  · decide
  · decide

/-! ## C4 — DRR unit-cost degeneration (corrected) -/

/-- C4 (counterexample): with `base_quantum = 1`, all `cost_hint = 1` and the two
clients of *equal* weight 2, the DRR dispatch order is A,A,B,B — each client's refill
`weight × base_quantum = 2` grants two consecutive slots — while plain round robin
dispatches A,B,A,B: the claim's "equal weight" premise is not enough. -/
theorem drr_equal_weight_not_round_robin_cex :
    (drrRun ["A", "B"] 4
        [("A", { mkClientState "A" 2 0 .REJECT with
                  queue := [⟨"A", 1, 1⟩, ⟨"A", 2, 1⟩] }),
         ("B", { mkClientState "B" 2 0 .REJECT with
                  queue := [⟨"B", 3, 1⟩, ⟨"B", 4, 1⟩] })]
        (initDRR 1)).1
    ≠ (rrRun ["A", "B"] 4
        [("A", { mkClientState "A" 2 0 .REJECT with
                  queue := [⟨"A", 1, 1⟩, ⟨"A", 2, 1⟩] }),
         ("B", { mkClientState "B" 2 0 .REJECT with
                  queue := [⟨"B", 3, 1⟩, ⟨"B", 4, 1⟩] })]
        0).1 := by
  decide

/-! ## C5 — work conservation of select_next_job -/

/-- If every registered queue is empty the DRR scan dispatches nothing. -/
theorem drrScan_none_of_all_empty (order : List String) (q : Nat) (clients : Registry)
    (hq : ∀ kc ∈ clients, kc.2.queue = []) :
    ∀ fuel d idx, (drrScan order q clients d idx fuel).job = none := by
  intro fuel
  induction fuel with
  | zero => intro d idx; rfl
  | succ n ih =>
      intro d idx
      cases hl : lookupC clients (order.getD idx "") with
      | none => simp only [drrScan, hl]
      | some c =>
          have hce : c.queue = [] := hq _ (lookupC_mem _ _ _ hl)
          simp only [drrScan, hl, hce]
          exact ih _ _

/-- If a full-fuel DRR scan dispatches nothing, every position it visited —
`(idx + k) % n` for `k < fuel` — holds an empty queue. -/
theorem drrScan_none_visited (order : List String) (q : Nat) (clients : Registry)
    (horder : order = clients.map Prod.fst)
    (hnd : (clients.map Prod.fst).Nodup) :
    ∀ fuel idx d, idx < clients.length →
      (drrScan order q clients d idx fuel).job = none →
      ∀ k, k < fuel → ∀ e, clients[(idx + k) % clients.length]? = some e →
        e.2.queue = [] := by
  intro fuel
  induction fuel with
  | zero => intro idx d _ _ k hk; omega
  | succ n ih =>
      intro idx d hidx hnone k hk e he
      have hn0 : 0 < clients.length := Nat.lt_of_le_of_lt (Nat.zero_le _) hidx
      have hcur : order.getD idx "" = (clients[idx]).1 := by
        rw [horder, List.getD_eq_getElem?_getD, List.getElem?_map,
            List.getElem?_eq_getElem hidx]
        rfl
      have hmem : clients[idx] ∈ clients := List.getElem_mem hidx
      have hl : lookupC clients (order.getD idx "") = some (clients[idx]).2 := by
        rw [hcur]
        exact lookupC_of_mem_nodup _ _ _ hnd hmem
      cases hqueue : (clients[idx]).2.queue with
      | cons j t =>
          exfalso
          have : (drrScan order q clients d idx (n + 1)).job = some j := by
            simp only [drrScan, hl, hqueue]
          rw [this] at hnone
          exact Option.noConfusion hnone
      | nil =>
          have hstep : drrScan order q clients d idx (n + 1)
              = drrScan order q clients (setDef d (order.getD idx "") 0)
                  ((idx + 1) % order.length) n := by
            simp only [drrScan, hl, hqueue]
          rw [hstep] at hnone
          have hlen : order.length = clients.length := by rw [horder, List.length_map]
          rw [hlen] at hnone
          have hidx1 : (idx + 1) % clients.length < clients.length := Nat.mod_lt _ hn0
          have hih := ih ((idx + 1) % clients.length)
            (setDef d (order.getD idx "") 0) hidx1 hnone
          cases k with
          | zero =>
              have hzero : (idx + 0) % clients.length = idx := by
                simpa using Nat.mod_eq_of_lt hidx
              rw [hzero, List.getElem?_eq_getElem hidx] at he
              have heq : e = clients[idx] := (Option.some.inj he).symm
              rw [heq]
              exact hqueue
          | succ j =>
              have hpos : (idx + (j + 1)) % clients.length
                  = ((idx + 1) % clients.length + j) % clients.length := by
                rw [Nat.mod_add_mod]
                congr 1
                omega
              rw [hpos] at he
              exact hih j (Nat.lt_of_succ_lt_succ hk) e he

/-- C5: with the DRR policy (the policy implementation shipped under src),
`select_next_job` returns none exactly when every registered client's queue is
empty; contrapositively, whenever some queue is non-empty a job is returned, and the
scan is bounded by construction to `n = number of registered clients` iterations
(the scan fuel is `order.length`).  The hypotheses are the well-formedness
invariants of a live scheduler: distinct registered ids and a cursor inside the
order (or no clients at all). -/
theorem select_none_iff_all_queues_empty (s : SchedulerState) (p : DRRState)
    (hnd : (s.clients.map Prod.fst).Nodup)
    (hidx : p.drr_index < s.clients.length ∨ s.clients = []) :
    ((select_next_job s p).1 = none ↔ ∀ kc ∈ s.clients, kc.2.queue = []) := by
  rcases hidx with hlt | hempty
  · have hcl : s.clients ≠ [] := by
      intro h
      rw [h] at hlt
      exact absurd hlt (by simp)
    have hne : s.client_order.isEmpty = false := by
      simp [SchedulerState.client_order, List.isEmpty_iff, hcl]
    have hsel : (select_next_job s p).1 =
        (drrScan s.client_order p.base_quantum s.clients p.deficit p.drr_index
          s.client_order.length).job := by
      simp [select_next_job, DeficitRoundRobinPolicy.select_next_job, hne]
    constructor
    · intro h kc hmem
      obtain ⟨i, hi, hei⟩ := List.mem_iff_getElem.mp hmem
      have hk : ∃ k, k < s.clients.length
          ∧ (p.drr_index + k) % s.clients.length = i := by
        by_cases hle : p.drr_index ≤ i
        · refine ⟨i - p.drr_index, by omega, ?_⟩
          rw [Nat.add_sub_cancel' hle]
          exact Nat.mod_eq_of_lt hi
        · refine ⟨s.clients.length - p.drr_index + i, by omega, ?_⟩
          have harith : p.drr_index + (s.clients.length - p.drr_index + i)
              = s.clients.length + i := by omega
          rw [harith, Nat.add_mod_left]
          exact Nat.mod_eq_of_lt hi
      obtain ⟨k, hkn, hkp⟩ := hk
      have hlen : s.client_order.length = s.clients.length := by
        simp [SchedulerState.client_order]
      have he : s.clients[(p.drr_index + k) % s.clients.length]? = some kc := by
        rw [hkp, List.getElem?_eq_getElem hi, hei]
      exact drrScan_none_visited s.client_order p.base_quantum s.clients rfl hnd
        s.client_order.length p.drr_index p.deficit hlt (hsel ▸ h)
        k (by omega) kc he
    · intro h
      rw [hsel]
      exact drrScan_none_of_all_empty _ _ _ h _ _ _
  · simp [select_next_job, SchedulerState.client_order, hempty]

/-- Concrete instantiation of `select_none_iff_all_queues_empty`: two clients, one
holding a job — `select_next_job` does not return none. -/
theorem select_none_iff_all_queues_empty_witness :
    ((twoClientState.clients.map Prod.fst).Nodup
      ∧ (initDRR 100).drr_index < twoClientState.clients.length)
    ∧ ((select_next_job twoClientState (initDRR 100)).1 = none
        ↔ ∀ kc ∈ twoClientState.clients, kc.2.queue = []) :=
  ⟨⟨by decide, by decide⟩,
   select_none_iff_all_queues_empty twoClientState (initDRR 100)
     (by decide) (Or.inl (by decide))⟩

/-! ## C1 — the amended counting identity -/

/-- One DRR scan either dispatches nothing and leaves the registry untouched, or pops
exactly the head of one registered client's queue. -/
theorem drrScan_clients_spec (order : List String) (q : Nat) :
    ∀ fuel clients d idx,
      ((drrScan order q clients d idx fuel).job = none
        ∧ (drrScan order q clients d idx fuel).clients = clients)
      ∨ (∃ id c j t, lookupC clients id = some c ∧ c.queue = j :: t
          ∧ (drrScan order q clients d idx fuel).job = some j
          ∧ (drrScan order q clients d idx fuel).clients
              = updateC clients id (fun c0 => { c0 with queue := c0.queue.tail })) := by
  intro fuel
  induction fuel with
  | zero => intro clients d idx; exact Or.inl ⟨rfl, rfl⟩
  | succ n ih =>
      intro clients d idx
      cases hl : lookupC clients (order.getD idx "") with
      | none =>
          exact Or.inl ⟨by simp only [drrScan, hl], by simp only [drrScan, hl]⟩
      | some c =>
          cases hq : c.queue with
          | nil =>
              have hstep : drrScan order q clients d idx (n + 1)
                  = drrScan order q clients (setDef d (order.getD idx "") 0)
                      ((idx + 1) % order.length) n := by
                simp only [drrScan, hl, hq]
              rw [hstep]
              exact ih clients _ _
          | cons j t =>
              refine Or.inr ⟨order.getD idx "", c, j, t, hl, hq, ?_, ?_⟩
              · simp only [drrScan, hl, hq]
              · simp only [drrScan, hl, hq]

/-- Two successive in-place mutations of the same client compose. -/
theorem updateC_updateC (r : Registry) (k : String)
    (f g : ClientState → ClientState) :
    updateC (updateC r k f) k g = updateC r k (fun c => g (f c)) := by
  induction r with
  | nil => rfl
  | cons kc rest ih =>
      obtain ⟨k0, c0⟩ := kc
      by_cases h : k0 = k <;> simp [updateC, h, ih]

/-- A successful lookup after an update is either the updated client or an untouched
one. -/
theorem lookupC_updateC_cases (r : Registry) (id id' : String)
    (f : ClientState → ClientState) (c' : ClientState)
    (h : lookupC (updateC r id f) id' = some c') :
    (id' = id ∧ ∃ c, lookupC r id = some c ∧ c' = f c)
    ∨ (id' ≠ id ∧ lookupC r id' = some c') := by
  by_cases hid : id' = id
  · subst hid
    rw [lookupC_updateC_self] at h
    cases hc : lookupC r id' with
    | none => rw [hc] at h; exact absurd h (by simp)
    | some c =>
        rw [hc] at h
        have hfc : f c = c' := by simpa using h
        exact Or.inl ⟨rfl, c, rfl, hfc.symm⟩
  · right
    exact ⟨hid, by rw [lookupC_updateC_ne _ _ _ hid] at h; exact h⟩

/-- Updating one client preserves the counting identity across the registry when the
update itself preserves it. -/
theorem AcctInv_updateC {r : Registry} {id : String} {f : ClientState → ClientState}
    (h : ∀ id' c, lookupC r id' = some c → acctOk c)
    (hf : ∀ c, lookupC r id = some c → acctOk (f c)) :
    ∀ id' c', lookupC (updateC r id f) id' = some c' → acctOk c' := by
  intro id' c' h'
  rcases lookupC_updateC_cases r id id' f c' h' with ⟨rfl, c, hc, rfl⟩ | ⟨hne, hold⟩
  · exact hf c hc
  · exact h id' c' hold

/-- Updating one client preserves queue ownership across the registry when the update
itself preserves it. -/
theorem OwnedInv_updateC {r : Registry} {id : String} {f : ClientState → ClientState}
    (h : ∀ id' c, lookupC r id' = some c → ownedOk id' c)
    (hf : ∀ c, lookupC r id = some c → ownedOk id (f c)) :
    ∀ id' c', lookupC (updateC r id f) id' = some c' → ownedOk id' c' := by
  intro id' c' h'
  rcases lookupC_updateC_cases r id id' f c' h' with ⟨rfl, c, hc, rfl⟩ | ⟨hne, hold⟩
  · exact hf c hc
  · exact h id' c' hold

/-- `applyOp` preserves the counting identity and queue-ownership invariants. -/
theorem applyOp_preserves_inv (sp : SchedulerState × DRRState) (op : Op)
    (h1 : AcctInv sp.1) (h2 : OwnedInv sp.1) :
    AcctInv (applyOp sp op).1 ∧ OwnedInv (applyOp sp op).1 := by
  obtain ⟨s, p⟩ := sp
  cases op with
  | register id w depth strat =>
      by_cases hw : w = 0
      · simpa [applyOp, register_client, hw] using ⟨h1, h2⟩
      · cases hdup : lookupC s.clients id with
        | some c => simpa [applyOp, register_client, hw, hdup] using ⟨h1, h2⟩
        | none =>
            have hstate : (applyOp (s, p) (Op.register id w depth strat)).1.clients
                = s.clients ++ [(id, mkClientState id w depth strat)] := by
              simp [applyOp, register_client, hw, hdup]
            constructor
            · intro id' c' h'
              rw [hstate] at h'
              cases hold : lookupC s.clients id' with
              | some c0 =>
                  rw [lookupC_append_of_some _ _ _ _ hold] at h'
                  have hcc : c0 = c' := Option.some.inj h'
                  subst hcc
                  exact h1 id' c0 hold
              | none =>
                  rw [lookupC_append_of_none _ _ _ hold] at h'
                  by_cases hid : id = id'
                  · subst hid
                    have hmk : mkClientState id w depth strat = c' := by
                      simpa [lookupC] using h'
                    rw [← hmk]
                    simp [acctOk, mkClientState]
                  · exact absurd h' (by simp [lookupC, hid])
            · intro id' c' h'
              rw [hstate] at h'
              cases hold : lookupC s.clients id' with
              | some c0 =>
                  rw [lookupC_append_of_some _ _ _ _ hold] at h'
                  have hcc : c0 = c' := Option.some.inj h'
                  subst hcc
                  exact h2 id' c0 hold
              | none =>
                  rw [lookupC_append_of_none _ _ _ hold] at h'
                  by_cases hid : id = id'
                  · subst hid
                    have hmk : mkClientState id w depth strat = c' := by
                      simpa [lookupC] using h'
                    rw [← hmk]
                    intro j hj
                    exact absurd hj (by simp [mkClientState])
                  · exact absurd h' (by simp [lookupC, hid])
  | submit id cost =>
      cases hl : lookupC s.clients id with
      | none => simpa [applyOp, submit, hl, SubmitResult.state] using ⟨h1, h2⟩
      | some c =>
          have hfPush : ∀ c0, lookupC s.clients id = some c0 →
              acctOk { c0 with
                        queue := c0.queue ++
                          [{ client_id := id, job_id := s.next_job_id,
                             cost_hint := cost }]
                        submitted_count := c0.submitted_count + 1 } := by
            intro c0 hc0
            have ha := h1 _ _ hc0
            simp [acctOk] at ha ⊢
            omega
          have hoPush : ∀ c0, lookupC s.clients id = some c0 →
              ownedOk id { c0 with
                        queue := c0.queue ++
                          [{ client_id := id, job_id := s.next_job_id,
                             cost_hint := cost }]
                        submitted_count := c0.submitted_count + 1 } := by
            intro c0 hc0
            intro j hj
            rcases (by simpa using hj :
                j ∈ c0.queue ∨ j = { client_id := id, job_id := s.next_job_id,
                                     cost_hint := cost }) with hj1 | hj2
            · exact h2 _ _ hc0 j hj1
            · rw [hj2]
          by_cases hdep : c.max_queue_depth > 0
          · cases hstrat : c.overflow_strategy with
            | REJECT =>
                by_cases hfull : c.queue.length ≥ c.max_queue_depth
                · have hstate : (applyOp (s, p) (Op.submit id cost)).1.clients
                      = updateC s.clients id (fun c0 =>
                          { c0 with
                              overflow_count := c0.overflow_count + 1
                              dropped_incoming := c0.dropped_incoming + 1 }) := by
                    simp [applyOp, submit, hl, hdep, hstrat, hfull, SubmitResult.state]
                  constructor
                  · intro id' c' h'
                    rw [hstate] at h'
                    refine AcctInv_updateC h1 ?_ id' c' h'
                    intro c0 hc0
                    have ha := h1 _ _ hc0
                    simp [acctOk] at ha ⊢
                    omega
                  · intro id' c' h'
                    rw [hstate] at h'
                    refine OwnedInv_updateC h2 ?_ id' c' h'
                    intro c0 hc0
                    intro j hj
                    exact h2 _ _ hc0 j (by simpa using hj)
                · have hstate : (applyOp (s, p) (Op.submit id cost)).1.clients
                      = updateC s.clients id (fun c0 =>
                          { c0 with
                              queue := c0.queue ++
                                [{ client_id := id, job_id := s.next_job_id,
                                   cost_hint := cost }]
                              submitted_count := c0.submitted_count + 1 }) := by
                    simp [applyOp, submit, hl, hdep, hstrat, hfull, SubmitResult.state]
                  constructor
                  · intro id' c' h'
                    rw [hstate] at h'
                    exact AcctInv_updateC h1 hfPush id' c' h'
                  · intro id' c' h'
                    rw [hstate] at h'
                    exact OwnedInv_updateC h2 hoPush id' c' h'
            | BLOCK =>
                by_cases hfull : c.queue.length ≥ c.max_queue_depth
                · have hstate : (applyOp (s, p) (Op.submit id cost)).1.clients
                      = s.clients := by
                    simp [applyOp, submit, hl, hdep, hstrat, hfull, SubmitResult.state]
                  constructor
                  · intro id' c' h'
                    rw [hstate] at h'
                    exact h1 _ _ h'
                  · intro id' c' h'
                    rw [hstate] at h'
                    exact h2 _ _ h'
                · have hstate : (applyOp (s, p) (Op.submit id cost)).1.clients
                      = updateC s.clients id (fun c0 =>
                          { c0 with
                              queue := c0.queue ++
                                [{ client_id := id, job_id := s.next_job_id,
                                   cost_hint := cost }]
                              submitted_count := c0.submitted_count + 1 }) := by
                    simp [applyOp, submit, hl, hdep, hstrat, hfull, SubmitResult.state]
                  constructor
                  · intro id' c' h'
                    rw [hstate] at h'
                    exact AcctInv_updateC h1 hfPush id' c' h'
                  · intro id' c' h'
                    rw [hstate] at h'
                    exact OwnedInv_updateC h2 hoPush id' c' h'
            | DROP_OLDEST =>
                by_cases hfull : c.queue.length ≥ c.max_queue_depth
                · have hstate : (applyOp (s, p) (Op.submit id cost)).1.clients
                      = updateC (updateC s.clients id (fun c0 =>
                            { c0 with
                                queue := c0.queue.tail
                                overflow_count := c0.overflow_count + 1 })) id
                          (fun c0 =>
                            { c0 with
                                queue := c0.queue ++
                                  [{ client_id := id, job_id := s.next_job_id,
                                     cost_hint := cost }]
                                submitted_count := c0.submitted_count + 1 }) := by
                    simp [applyOp, submit, hl, hdep, hstrat, hfull, SubmitResult.state]
                  rw [updateC_updateC] at hstate
                  constructor
                  · intro id' c' h'
                    rw [hstate] at h'
                    refine AcctInv_updateC h1 ?_ id' c' h'
                    intro c0 hc0
                    rw [hl] at hc0
                    obtain rfl : c = c0 := Option.some.inj hc0
                    have ha := h1 _ _ hl
                    have hlen : 1 ≤ c.queue.length := le_trans hdep hfull
                    simp [acctOk] at ha ⊢
                    omega
                  · intro id' c' h'
                    rw [hstate] at h'
                    refine OwnedInv_updateC h2 ?_ id' c' h'
                    intro c0 hc0
                    intro j hj
                    rcases (by simpa using hj :
                        j ∈ c0.queue.tail ∨ j = (⟨id, s.next_job_id, cost⟩ : Job)) with
                      hj1 | hj2
                    · exact h2 _ _ hc0 j (List.mem_of_mem_tail hj1)
                    · rw [hj2]
                · have hstate : (applyOp (s, p) (Op.submit id cost)).1.clients
                      = updateC s.clients id (fun c0 =>
                          { c0 with
                              queue := c0.queue ++
                                [{ client_id := id, job_id := s.next_job_id,
                                   cost_hint := cost }]
                              submitted_count := c0.submitted_count + 1 }) := by
                    simp [applyOp, submit, hl, hdep, hstrat, hfull, SubmitResult.state]
                  constructor
                  · intro id' c' h'
                    rw [hstate] at h'
                    exact AcctInv_updateC h1 hfPush id' c' h'
                  · intro id' c' h'
                    rw [hstate] at h'
                    exact OwnedInv_updateC h2 hoPush id' c' h'
            | DROP_NEWEST =>
                by_cases hfull : c.queue.length ≥ c.max_queue_depth
                · have hstate : (applyOp (s, p) (Op.submit id cost)).1.clients
                      = updateC s.clients id (fun c0 =>
                          { c0 with
                              overflow_count := c0.overflow_count + 1
                              dropped_incoming := c0.dropped_incoming + 1 }) := by
                    simp [applyOp, submit, hl, hdep, hstrat, hfull, SubmitResult.state]
                  constructor
                  · intro id' c' h'
                    rw [hstate] at h'
                    refine AcctInv_updateC h1 ?_ id' c' h'
                    intro c0 hc0
                    have ha := h1 _ _ hc0
                    simp [acctOk] at ha ⊢
                    omega
                  · intro id' c' h'
                    rw [hstate] at h'
                    refine OwnedInv_updateC h2 ?_ id' c' h'
                    intro c0 hc0
                    intro j hj
                    exact h2 _ _ hc0 j (by simpa using hj)
                · have hstate : (applyOp (s, p) (Op.submit id cost)).1.clients
                      = updateC s.clients id (fun c0 =>
                          { c0 with
                              queue := c0.queue ++
                                [{ client_id := id, job_id := s.next_job_id,
                                   cost_hint := cost }]
                              submitted_count := c0.submitted_count + 1 }) := by
                    simp [applyOp, submit, hl, hdep, hstrat, hfull, SubmitResult.state]
                  constructor
                  · intro id' c' h'
                    rw [hstate] at h'
                    exact AcctInv_updateC h1 hfPush id' c' h'
                  · intro id' c' h'
                    rw [hstate] at h'
                    exact OwnedInv_updateC h2 hoPush id' c' h'
          · have hstate : (applyOp (s, p) (Op.submit id cost)).1.clients
                = updateC s.clients id (fun c0 =>
                    { c0 with
                        queue := c0.queue ++
                          [{ client_id := id, job_id := s.next_job_id,
                             cost_hint := cost }]
                        submitted_count := c0.submitted_count + 1 }) := by
              simp [applyOp, submit, hl, hdep, SubmitResult.state]
            constructor
            · intro id' c' h'
              rw [hstate] at h'
              exact AcctInv_updateC h1 hfPush id' c' h'
            · intro id' c' h'
              rw [hstate] at h'
              exact OwnedInv_updateC h2 hoPush id' c' h'
  | execute dur =>
      by_cases hord : s.client_order.isEmpty
      · have hstate : applyOp (s, p) (Op.execute dur) = (s, p) := by
          simp [applyOp, select_next_job, hord]
        rw [hstate]
        exact ⟨h1, h2⟩
      · rcases drrScan_clients_spec s.client_order p.base_quantum
            s.client_order.length s.clients p.deficit p.drr_index with
          ⟨hjob, hcl⟩ | ⟨cid, c, jb, t, hlk, hq, hjob, hcl⟩
        · have hstate : (applyOp (s, p) (Op.execute dur)).1.clients = s.clients := by
            simp [applyOp, select_next_job, hord,
              DeficitRoundRobinPolicy.select_next_job, hjob, hcl]
          constructor
          · intro id' c' h'
            rw [hstate] at h'
            exact h1 _ _ h'
          · intro id' c' h'
            rw [hstate] at h'
            exact h2 _ _ h'
        · have hjcid : jb.client_id = cid :=
            h2 _ _ hlk jb (by rw [hq]; exact List.mem_cons_self _ _)
          have hlook : lookupC (updateC s.clients cid
              (fun c0 => { c0 with queue := c0.queue.tail })) cid
              = some { c with queue := c.queue.tail } := by
            rw [lookupC_updateC_self, hlk]
            rfl
          have hstate : (applyOp (s, p) (Op.execute dur)).1.clients
              = updateC (updateC s.clients cid
                  (fun c0 => { c0 with queue := c0.queue.tail })) cid
                  (fun c0 =>
                    { c0 with
                        executed_count := c0.executed_count + 1
                        total_execution_time_us :=
                          c0.total_execution_time_us + dur }) := by
            simp [applyOp, select_next_job, hord,
              DeficitRoundRobinPolicy.select_next_job, hjob, hcl,
              record_execution, hjcid, hlook]
          rw [updateC_updateC] at hstate
          constructor
          · intro id' c' h'
            rw [hstate] at h'
            refine AcctInv_updateC h1 ?_ id' c' h'
            intro c0 hc0
            rw [hlk] at hc0
            obtain rfl : c = c0 := Option.some.inj hc0
            have ha := h1 _ _ hlk
            simp [acctOk, hq] at ha ⊢
            omega
          · intro id' c' h'
            rw [hstate] at h'
            refine OwnedInv_updateC h2 ?_ id' c' h'
            intro c0 hc0
            rw [hlk] at hc0
            obtain rfl : c = c0 := Option.some.inj hc0
            intro j hj
            exact h2 _ _ hlk j (List.mem_of_mem_tail (by simpa using hj))

/-- Both invariants hold in every state reachable by a trace from the fresh
scheduler. -/
theorem runOps_inv (q : Nat) (ops : List Op) :
    AcctInv (runOps q ops).1 ∧ OwnedInv (runOps q ops).1 := by
  have main : ∀ (l : List Op) (sp : SchedulerState × DRRState),
      AcctInv sp.1 → OwnedInv sp.1 →
      AcctInv (l.foldl applyOp sp).1 ∧ OwnedInv (l.foldl applyOp sp).1 := by
    intro l
    induction l with
    | nil => exact fun sp ha ho => ⟨ha, ho⟩
    | cons op rest ih =>
        intro sp ha ho
        have h := applyOp_preserves_inv sp op ha ho
        exact ih _ h.1 h.2
  exact main ops (initScheduler, initDRR q)
    (fun id c h => by simp [initScheduler, lookupC] at h)
    (fun id c h => by simp [initScheduler, lookupC] at h)

/-- C1 (amended): in every state reached by a serialized trace of registrations,
submissions and executions — i.e. at any globally-quiescent point — each client
satisfies `submitted_count + dropped_incoming = executed_count + overflow_count +
queue_depth`, where `dropped_incoming` counts the submissions refused under `REJECT`
or discarded under `DROP_NEWEST`.  In particular once the queues have drained
(shutdown complete) `submitted + dropped_incoming = executed + overflow_count`; the
spec's identity without the ghost term holds exactly when all overflows were
`DROP_OLDEST`. -/
theorem submitted_identity_invariant (q : Nat) (ops : List Op) (id : String)
    (c : ClientState)
    (hc : lookupC (runOps q ops).1.clients id = some c) :
    c.submitted_count + c.dropped_incoming
      = c.executed_count + c.overflow_count + c.queue.length :=
  (runOps_inv q ops).1 id c hc

/-- Concrete instantiation of `submitted_identity_invariant` on the REJECT-overflow
trace of the counterexample: the amended identity holds there (1 + 1 = 1 + 1 + 0). -/
theorem submitted_identity_invariant_witness :
    (lookupC (runOps 100 [.register "a" 1 1 .REJECT, .submit "a" 1, .submit "a" 1,
        .execute 0]).1.clients "a"
      = some (⟨"a", 1, [], 1, 1, 0, 1, 1, .REJECT, 1⟩ : ClientState))
    ∧ (1 : Nat) + 1 = 1 + 1 + ([] : List Job).length :=
  ⟨by decide,
   submitted_identity_invariant 100
     [.register "a" 1 1 .REJECT, .submit "a" 1, .submit "a" 1, .execute 0] "a"
     ⟨"a", 1, [], 1, 1, 0, 1, 1, .REJECT, 1⟩ (by decide)⟩

/-! ## C9 — the DRR deficit bound -/

/-- The DRR scan keeps every registered client's deficit at most
`weight × base_quantum`: an empty-queue reset leaves `0 ≤ w·q`, a refill fires only
from a non-positive deficit and is immediately charged the popped job's cost. -/
theorem drrScan_deficit_bound (order : List String) (q : Nat) :
    ∀ fuel clients d idx,
      (∀ id c, lookupC clients id = some c →
        getDef d id ≤ ((c.weight * q : Nat) : Int)) →
      ∀ id c,
        lookupC (drrScan order q clients d idx fuel).clients id = some c →
        getDef (drrScan order q clients d idx fuel).deficit id
          ≤ ((c.weight * q : Nat) : Int) := by
  intro fuel
  induction fuel with
  | zero => intro clients d idx h; exact h
  | succ n ih =>
      intro clients d idx h
      cases hl : lookupC clients (order.getD idx "") with
      | none => simpa only [drrScan, hl] using h
      | some c0 =>
          cases hq : c0.queue with
          | nil =>
              have hstep : drrScan order q clients d idx (n + 1)
                  = drrScan order q clients (setDef d (order.getD idx "") 0)
                      ((idx + 1) % order.length) n := by
                simp only [drrScan, hl, hq]
              rw [hstep]
              refine ih clients _ _ ?_
              intro id c hc
              by_cases hid : id = order.getD idx ""
              · subst hid
                rw [getDef_setDef_self]
                exact Int.natCast_nonneg _
              · rw [getDef_setDef_ne _ _ _ _ hid]
                exact h id c hc
          | cons j t =>
              intro id c hc
              have hjob : (drrScan order q clients d idx (n + 1)).clients
                  = updateC clients (order.getD idx "")
                      (fun c1 => { c1 with queue := c1.queue.tail }) := by
                simp only [drrScan, hl, hq]
              have hdef : (drrScan order q clients d idx (n + 1)).deficit
                  = setDef d (order.getD idx "")
                      ((if getDef d (order.getD idx "") ≤ 0 then
                          getDef d (order.getD idx "") + ((c0.weight * q : Nat) : Int)
                        else getDef d (order.getD idx "")) - (j.cost_hint : Int)) := by
                simp only [drrScan, hl, hq]
              rw [hjob] at hc
              rw [hdef]
              rcases lookupC_updateC_cases _ _ _ _ _ hc with
                ⟨rfl, c1, hc1, rfl⟩ | ⟨hne, hold⟩
              · rw [hl] at hc1
                obtain rfl : c0 = c1 := Option.some.inj hc1
                rw [getDef_setDef_self]
                have hd0 := h _ _ hl
                have hcost : (0 : Int) ≤ (j.cost_hint : Int) := Int.natCast_nonneg _
                have hgoal : (({ c0 with queue := c0.queue.tail } :
                    ClientState).weight * q : Nat) = (c0.weight * q : Nat) := rfl
                rw [hgoal]
                by_cases hneg : getDef d (order.getD idx "") ≤ 0
                · rw [if_pos hneg]
                  omega
                · rw [if_neg hneg]
                  omega
              · rw [getDef_setDef_ne _ _ _ _ hne]
                exact h _ _ hold

/-- A weight-preserving in-place client update does not change any client's weight as
observed through lookups. -/
theorem weight_shape_updateC (r : Registry) (id0 : String)
    (f : ClientState → ClientState) (hf : ∀ c, (f c).weight = c.weight) :
    ∀ id c', lookupC (updateC r id0 f) id = some c' →
      ∃ c, lookupC r id = some c ∧ c'.weight = c.weight := by
  intro id c' h'
  rcases lookupC_updateC_cases r id0 id f c' h' with ⟨rfl, c, hc, rfl⟩ | ⟨hne, hold⟩
  · exact ⟨c, hc, hf c⟩
  · exact ⟨c', hold, rfl⟩

/-- Every client visible after a `submit` has the weight it had before (submit never
touches `weight`). -/
theorem submit_preserves_weight (s : SchedulerState) (id0 : String) (cost : Nat) :
    ∀ id c', lookupC (submit s id0 cost).state.clients id = some c' →
      ∃ c, lookupC s.clients id = some c ∧ c'.weight = c.weight := by
  intro id c' h'
  cases hl : lookupC s.clients id0 with
  | none =>
      refine ⟨c', ?_, rfl⟩
      simpa [submit, hl, SubmitResult.state] using h'
  | some c0 =>
      by_cases hdep : c0.max_queue_depth > 0
      · cases hstrat : c0.overflow_strategy with
        | REJECT =>
            by_cases hfull : c0.queue.length ≥ c0.max_queue_depth
            · rw [show (submit s id0 cost).state.clients
                  = updateC s.clients id0 (fun c1 =>
                      { c1 with
                          overflow_count := c1.overflow_count + 1
                          dropped_incoming := c1.dropped_incoming + 1 }) from by
                simp [submit, hl, hdep, hstrat, hfull, SubmitResult.state]] at h'
              exact weight_shape_updateC _ _ _ (fun c => by rfl) id c' h'
            · rw [show (submit s id0 cost).state.clients
                  = updateC s.clients id0 (fun c1 =>
                      { c1 with
                          queue := c1.queue ++ [⟨id0, s.next_job_id, cost⟩]
                          submitted_count := c1.submitted_count + 1 }) from by
                simp [submit, hl, hdep, hstrat, hfull, SubmitResult.state]] at h'
              exact weight_shape_updateC _ _ _ (fun c => by rfl) id c' h'
        | BLOCK =>
            by_cases hfull : c0.queue.length ≥ c0.max_queue_depth
            · refine ⟨c', ?_, rfl⟩
              simpa [submit, hl, hdep, hstrat, hfull, SubmitResult.state] using h'
            · rw [show (submit s id0 cost).state.clients
                  = updateC s.clients id0 (fun c1 =>
                      { c1 with
                          queue := c1.queue ++ [⟨id0, s.next_job_id, cost⟩]
                          submitted_count := c1.submitted_count + 1 }) from by
                simp [submit, hl, hdep, hstrat, hfull, SubmitResult.state]] at h'
              exact weight_shape_updateC _ _ _ (fun c => by rfl) id c' h'
        | DROP_OLDEST =>
            by_cases hfull : c0.queue.length ≥ c0.max_queue_depth
            · rw [show (submit s id0 cost).state.clients
                  = updateC (updateC s.clients id0 (fun c1 =>
                      { c1 with
                          queue := c1.queue.tail
                          overflow_count := c1.overflow_count + 1 })) id0 (fun c1 =>
                      { c1 with
                          queue := c1.queue ++ [⟨id0, s.next_job_id, cost⟩]
                          submitted_count := c1.submitted_count + 1 }) from by
                simp [submit, hl, hdep, hstrat, hfull, SubmitResult.state]] at h'
              rw [updateC_updateC] at h'
              exact weight_shape_updateC _ _ _ (fun c => by rfl) id c' h'
            · rw [show (submit s id0 cost).state.clients
                  = updateC s.clients id0 (fun c1 =>
                      { c1 with
                          queue := c1.queue ++ [⟨id0, s.next_job_id, cost⟩]
                          submitted_count := c1.submitted_count + 1 }) from by
                simp [submit, hl, hdep, hstrat, hfull, SubmitResult.state]] at h'
              exact weight_shape_updateC _ _ _ (fun c => by rfl) id c' h'
        | DROP_NEWEST =>
            by_cases hfull : c0.queue.length ≥ c0.max_queue_depth
            · rw [show (submit s id0 cost).state.clients
                  = updateC s.clients id0 (fun c1 =>
                      { c1 with
                          overflow_count := c1.overflow_count + 1
                          dropped_incoming := c1.dropped_incoming + 1 }) from by
                simp [submit, hl, hdep, hstrat, hfull, SubmitResult.state]] at h'
              exact weight_shape_updateC _ _ _ (fun c => by rfl) id c' h'
            · rw [show (submit s id0 cost).state.clients
                  = updateC s.clients id0 (fun c1 =>
                      { c1 with
                          queue := c1.queue ++ [⟨id0, s.next_job_id, cost⟩]
                          submitted_count := c1.submitted_count + 1 }) from by
                simp [submit, hl, hdep, hstrat, hfull, SubmitResult.state]] at h'
              exact weight_shape_updateC _ _ _ (fun c => by rfl) id c' h'
      · rw [show (submit s id0 cost).state.clients
            = updateC s.clients id0 (fun c1 =>
                { c1 with
                    queue := c1.queue ++ [⟨id0, s.next_job_id, cost⟩]
                    submitted_count := c1.submitted_count + 1 }) from by
          simp [submit, hl, hdep, SubmitResult.state]] at h'
        exact weight_shape_updateC _ _ _ (fun c => by rfl) id c' h'

/-- `applyOp` preserves the deficit bound. -/
theorem applyOp_preserves_defInv (sp : SchedulerState × DRRState) (op : Op)
    (hd : DefInv sp) : DefInv (applyOp sp op) := by
  obtain ⟨s, p⟩ := sp
  cases op with
  | register id w depth strat =>
      by_cases hw : w = 0
      · simpa [applyOp, register_client, hw] using hd
      · cases hdup : lookupC s.clients id with
        | some c => simpa [applyOp, register_client, hw, hdup] using hd
        | none =>
            intro id' c' h'
            have hstate1 : (applyOp (s, p) (Op.register id w depth strat)).1.clients
                = s.clients ++ [(id, mkClientState id w depth strat)] := by
              simp [applyOp, register_client, hw, hdup]
            have hstate2 : (applyOp (s, p) (Op.register id w depth strat)).2
                = { p with deficit := setDef p.deficit id 0 } := by
              simp [applyOp, register_client, hw, hdup,
                DeficitRoundRobinPolicy.on_client_registered]
            rw [hstate1] at h'
            simp only [hstate2]
            cases hold : lookupC s.clients id' with
            | some c0 =>
                rw [lookupC_append_of_some _ _ _ _ hold] at h'
                have hcc : c0 = c' := Option.some.inj h'
                subst hcc
                have hne : id' ≠ id := by
                  rintro rfl
                  rw [hold] at hdup
                  exact Option.noConfusion hdup
                rw [getDef_setDef_ne _ _ _ _ hne]
                exact hd id' c0 hold
            | none =>
                rw [lookupC_append_of_none _ _ _ hold] at h'
                by_cases hid : id = id'
                · subst hid
                  have hmk : mkClientState id w depth strat = c' := by
                    simpa [lookupC] using h'
                  rw [getDef_setDef_self]
                  exact Int.natCast_nonneg _
                · exact absurd h' (by simp [lookupC, hid])
  | submit id cost =>
      intro id' c' h'
      obtain ⟨c, hc, hw⟩ := submit_preserves_weight s id cost id' c' h'
      show getDef p.deficit id' ≤ ((c'.weight * p.base_quantum : Nat) : Int)
      rw [hw]
      exact hd id' c hc
  | execute dur =>
      by_cases hord : s.client_order.isEmpty
      · have hstate : applyOp (s, p) (Op.execute dur) = (s, p) := by
          simp [applyOp, select_next_job, hord]
        rw [hstate]
        exact hd
      · have hscan := drrScan_deficit_bound s.client_order p.base_quantum
          s.client_order.length s.clients p.deficit p.drr_index hd
        cases hjob : (drrScan s.client_order p.base_quantum s.clients p.deficit
            p.drr_index s.client_order.length).job with
        | none =>
            have hcl2 : (applyOp (s, p) (Op.execute dur)).1.clients
                = (drrScan s.client_order p.base_quantum s.clients p.deficit
                    p.drr_index s.client_order.length).clients := by
              simp [applyOp, select_next_job, hord,
                DeficitRoundRobinPolicy.select_next_job, hjob]
            have hp2 : (applyOp (s, p) (Op.execute dur)).2
                = { p with
                      drr_index := (drrScan s.client_order p.base_quantum s.clients
                        p.deficit p.drr_index s.client_order.length).idx
                      deficit := (drrScan s.client_order p.base_quantum s.clients
                        p.deficit p.drr_index s.client_order.length).deficit } := by
              simp [applyOp, select_next_job, hord,
                DeficitRoundRobinPolicy.select_next_job, hjob]
            intro id c' h'
            rw [hcl2] at h'
            simp only [hp2]
            exact hscan id c' h'
        | some jb =>
            cases hlook2 : lookupC (drrScan s.client_order p.base_quantum s.clients
                p.deficit p.drr_index s.client_order.length).clients jb.client_id with
            | none =>
                have hcl2 : (applyOp (s, p) (Op.execute dur)).1.clients
                    = (drrScan s.client_order p.base_quantum s.clients p.deficit
                        p.drr_index s.client_order.length).clients := by
                  simp [applyOp, select_next_job, hord,
                    DeficitRoundRobinPolicy.select_next_job, hjob,
                    record_execution, hlook2]
                have hp2 : (applyOp (s, p) (Op.execute dur)).2
                    = { p with
                          drr_index := (drrScan s.client_order p.base_quantum
                            s.clients p.deficit p.drr_index
                            s.client_order.length).idx
                          deficit := (drrScan s.client_order p.base_quantum
                            s.clients p.deficit p.drr_index
                            s.client_order.length).deficit } := by
                  simp [applyOp, select_next_job, hord,
                    DeficitRoundRobinPolicy.select_next_job, hjob,
                    record_execution, hlook2]
                intro id c' h'
                rw [hcl2] at h'
                simp only [hp2]
                exact hscan id c' h'
            | some cx =>
                have hcl2 : (applyOp (s, p) (Op.execute dur)).1.clients
                    = updateC (drrScan s.client_order p.base_quantum s.clients
                        p.deficit p.drr_index s.client_order.length).clients
                        jb.client_id (fun c1 =>
                          { c1 with
                              executed_count := c1.executed_count + 1
                              total_execution_time_us :=
                                c1.total_execution_time_us + dur }) := by
                  simp [applyOp, select_next_job, hord,
                    DeficitRoundRobinPolicy.select_next_job, hjob,
                    record_execution, hlook2]
                have hp2 : (applyOp (s, p) (Op.execute dur)).2
                    = { p with
                          drr_index := (drrScan s.client_order p.base_quantum
                            s.clients p.deficit p.drr_index
                            s.client_order.length).idx
                          deficit := (drrScan s.client_order p.base_quantum
                            s.clients p.deficit p.drr_index
                            s.client_order.length).deficit } := by
                  simp [applyOp, select_next_job, hord,
                    DeficitRoundRobinPolicy.select_next_job, hjob,
                    record_execution, hlook2]
                intro id c' h'
                rw [hcl2] at h'
                obtain ⟨c, hc, hw⟩ :=
                  weight_shape_updateC _ _ _ (fun c => by rfl) id c' h'
                simp only [hp2]
                rw [hw]
                exact hscan id c hc

/-- The deficit bound holds in every state reachable by a trace from the fresh
scheduler. -/
theorem runOps_defInv (q : Nat) (ops : List Op) : DefInv (runOps q ops) := by
  have main : ∀ (l : List Op) (sp : SchedulerState × DRRState),
      DefInv sp → DefInv (l.foldl applyOp sp) := by
    intro l
    induction l with
    | nil => exact fun sp hd => hd
    | cons op rest ih =>
        intro sp hd
        exact ih _ (applyOp_preserves_defInv sp op hd)
  exact main ops (initScheduler, initDRR q)
    (fun id c h => by simp [initScheduler, lookupC] at h)

/-- C9: in every reachable state of the scheduler running the
`DeficitRoundRobinPolicy`, each registered client's deficit counter is at most
`weight × base_quantum`: it starts at 0 on registration, is refilled by
`weight × base_quantum` only from a non-positive value, is reset to 0 when the
client's queue is observed empty, and is otherwise only decreased by the dispatched
job's `cost_hint` — each a branch of the step function, and together they keep the
counter below the bound. -/
theorem drr_deficit_bounded (q : Nat) (ops : List Op) (id : String)
    (c : ClientState)
    (hc : lookupC (runOps q ops).1.clients id = some c) :
    getDef (runOps q ops).2.deficit id
      ≤ ((c.weight * (runOps q ops).2.base_quantum : Nat) : Int) :=
  runOps_defInv q ops id c hc

/-- Concrete instantiation of `drr_deficit_bounded`: client `"a"` with weight 2 and
quantum 100 refills to 200 and is charged a cost-3 job, leaving deficit 197 ≤ 200. -/
theorem drr_deficit_bounded_witness :
    (lookupC (runOps 100 [.register "a" 2 0 .REJECT, .submit "a" 3,
        .execute 0]).1.clients "a"
      = some (⟨"a", 2, [], 1, 1, 0, 0, 0, .REJECT, 0⟩ : ClientState))
    ∧ getDef (runOps 100 [.register "a" 2 0 .REJECT, .submit "a" 3,
        .execute 0]).2.deficit "a"
      ≤ (((⟨"a", 2, [], 1, 1, 0, 0, 0, .REJECT, 0⟩ : ClientState).weight
          * (runOps 100 [.register "a" 2 0 .REJECT, .submit "a" 3,
              .execute 0]).2.base_quantum : Nat) : Int) :=
  ⟨by decide,
   drr_deficit_bounded 100 [.register "a" 2 0 .REJECT, .submit "a" 3, .execute 0]
     "a" ⟨"a", 2, [], 1, 1, 0, 0, 0, .REJECT, 0⟩ (by decide)⟩

/-- With `base_quantum = 1`, unit weights and unit costs, one DRR scan coincides with
one plain round-robin scan (same dispatch, registry, cursor) and keeps every deficit
at zero. -/
theorem drr_rr_scan_eq (order : List String) :
    ∀ fuel clients idx d,
      (∀ id, getDef d id = 0) →
      (∀ id c, lookupC clients id = some c →
        c.weight = 1 ∧ ∀ j ∈ c.queue, j.cost_hint = 1) →
      (drrScan order 1 clients d idx fuel).job = (rrScan order clients idx fuel).1
      ∧ (drrScan order 1 clients d idx fuel).clients
          = (rrScan order clients idx fuel).2.1
      ∧ (drrScan order 1 clients d idx fuel).idx
          = (rrScan order clients idx fuel).2.2
      ∧ (∀ id, getDef (drrScan order 1 clients d idx fuel).deficit id = 0) := by
  intro fuel
  induction fuel with
  | zero => intro clients idx d hd hc; exact ⟨rfl, rfl, rfl, hd⟩
  | succ n ih =>
      intro clients idx d hd hc
      cases hl : lookupC clients (order.getD idx "") with
      | none =>
          refine ⟨?_, ?_, ?_, ?_⟩ <;> simp only [drrScan, rrScan, hl]
          exact hd
      | some c =>
          cases hq : c.queue with
          | nil =>
              have hd' : ∀ id, getDef (setDef d (order.getD idx "") 0) id = 0 := by
                intro id
                by_cases hid : id = order.getD idx ""
                · subst hid; exact getDef_setDef_self _ _ _
                · rw [getDef_setDef_ne _ _ _ _ hid]; exact hd id
              have hrec := ih clients ((idx + 1) % order.length)
                (setDef d (order.getD idx "") 0) hd' hc
              refine ⟨?_, ?_, ?_, ?_⟩ <;> simp only [drrScan, rrScan, hl, hq]
              · exact hrec.1
              · exact hrec.2.1
              · exact hrec.2.2.1
              · exact hrec.2.2.2
          | cons j t =>
              have hw1 : c.weight = 1 := (hc _ _ hl).1
              have hcost : j.cost_hint = 1 :=
                (hc _ _ hl).2 j (by rw [hq]; exact List.mem_cons_self _ _)
              have hd0 : getDef d (order.getD idx "") = 0 := hd _
              refine ⟨?_, ?_, ?_, ?_⟩
              · simp only [drrScan, rrScan, hl, hq]
              · simp only [drrScan, rrScan, hl, hq]
              · simp only [drrScan, rrScan, hl, hq, hd0, hw1, hcost]
                norm_num
              · intro id
                by_cases hid : id = order.getD idx ""
                · subst hid
                  simp only [drrScan, hl, hq, hd0, hw1, hcost]
                  rw [getDef_setDef_self]
                  norm_num
                · simp only [drrScan, hl, hq]
                  rw [getDef_setDef_ne _ _ _ _ hid]
                  exact hd id

/-- A plain round-robin scan preserves "unit weight, unit costs" across the
registry. -/
theorem rrScan_preserves_unit (order : List String) :
    ∀ fuel clients idx,
      (∀ id c, lookupC clients id = some c →
        c.weight = 1 ∧ ∀ j ∈ c.queue, j.cost_hint = 1) →
      ∀ id c, lookupC (rrScan order clients idx fuel).2.1 id = some c →
        c.weight = 1 ∧ ∀ j ∈ c.queue, j.cost_hint = 1 := by
  intro fuel
  induction fuel with
  | zero => intro clients idx hc; exact hc
  | succ n ih =>
      intro clients idx hc
      cases hl : lookupC clients (order.getD idx "") with
      | none => simpa only [rrScan, hl] using hc
      | some c =>
          cases hq : c.queue with
          | nil =>
              have hstep : (rrScan order clients idx (n + 1)).2.1
                  = (rrScan order clients ((idx + 1) % order.length) n).2.1 := by
                simp only [rrScan, hl, hq]
              rw [hstep]
              exact ih clients _ hc
          | cons j t =>
              intro id c' h'
              have hstep : (rrScan order clients idx (n + 1)).2.1
                  = updateC clients (order.getD idx "")
                      (fun c1 => { c1 with queue := c1.queue.tail }) := by
                simp only [rrScan, hl, hq]
              rw [hstep] at h'
              rcases lookupC_updateC_cases _ _ _ _ _ h' with
                ⟨rfl, c1, hc1, rfl⟩ | ⟨hne, hold⟩
              · refine ⟨(hc _ _ hc1).1, ?_⟩
                intro j0 hj0
                exact (hc _ _ hc1).2 j0 (List.mem_of_mem_tail (by simpa using hj0))
              · exact hc _ _ hold

/-- C4 (amended): with `base_quantum = 1`, every queued job's `cost_hint = 1`, and
every client's weight equal to 1 (so that the refill `weight × base_quantum` is one
credit), repeated single-worker `select_next_job` calls against the
`DeficitRoundRobinPolicy` produce exactly the plain round-robin dispatch sequence —
one job per non-empty client per cycle in registration order. -/
theorem drr_unit_is_round_robin (order : List String) (k : Nat) :
    ∀ clients idx d,
      (∀ id, getDef d id = 0) →
      (∀ id c, lookupC clients id = some c →
        c.weight = 1 ∧ ∀ j ∈ c.queue, j.cost_hint = 1) →
      (drrRun order k clients ⟨1, idx, d⟩).1 = (rrRun order k clients idx).1 := by
  induction k with
  | zero => intro clients idx d _ _; rfl
  | succ n ih =>
      intro clients idx d hd hc
      obtain ⟨hj, hcl, hix, hdz⟩ :=
        drr_rr_scan_eq order order.length clients idx d hd hc
      have e1 : DeficitRoundRobinPolicy.select_next_job ⟨1, idx, d⟩ order clients
          = ((rrScan order clients idx order.length).1,
             (rrScan order clients idx order.length).2.1,
             ⟨1, (rrScan order clients idx order.length).2.2,
              (drrScan order 1 clients d idx order.length).deficit⟩) := by
        simp only [DeficitRoundRobinPolicy.select_next_job, hj, hcl, hix]
      have e2 : rrSelect order clients idx
          = ((rrScan order clients idx order.length).1,
             (rrScan order clients idx order.length).2.1,
             (rrScan order clients idx order.length).2.2) := rfl
      simp only [drrRun, rrRun, e1, e2]
      have hrec := ih (rrScan order clients idx order.length).2.1
        (rrScan order clients idx order.length).2.2
        (drrScan order 1 clients d idx order.length).deficit hdz
        (rrScan_preserves_unit order order.length clients idx hc)
      rw [hrec]

/-- Concrete instantiation of `drr_unit_is_round_robin` on `unitRegistry`: the DRR
and plain round-robin dispatch sequences coincide over four selections. -/
theorem drr_unit_is_round_robin_witness :
    ((∀ id, getDef ([] : DeficitMap) id = 0)
      ∧ (∀ id c, lookupC unitRegistry id = some c →
          c.weight = 1 ∧ ∀ j ∈ c.queue, j.cost_hint = 1))
    ∧ (drrRun ["A", "B"] 4 unitRegistry ⟨1, 0, []⟩).1
        = (rrRun ["A", "B"] 4 unitRegistry 0).1 :=
  ⟨⟨fun _ => rfl,
    by
      intro id c h
      simp only [unitRegistry, lookupC] at h
      split_ifs at h with h1 h2
      · obtain rfl := Option.some.inj h
        exact ⟨rfl, by decide⟩
      · obtain rfl := Option.some.inj h
        exact ⟨rfl, by decide⟩⟩,
   drr_unit_is_round_robin ["A", "B"] 4 unitRegistry 0 [] (fun _ => rfl)
     (by
      intro id c h
      simp only [unitRegistry, lookupC] at h
      split_ifs at h with h1 h2
      · obtain rfl := Option.some.inj h
        exact ⟨rfl, by decide⟩
      · obtain rfl := Option.some.inj h
        exact ⟨rfl, by decide⟩)⟩

/-! ## C3 — WRR determinism (spec-modelled policy) -/

/-- Updating the distinguished middle client rewrites exactly that entry. -/
theorem updateC_append_middle (pre post : Registry) (id : String) (c : ClientState)
    (f : ClientState → ClientState) (hpre : id ∉ pre.map Prod.fst) :
    updateC (pre ++ (id, c) :: post) id f = pre ++ (id, f c) :: post := by
  induction pre with
  | nil => simp [updateC]
  | cons kc rest ih =>
      obtain ⟨k0, c0⟩ := kc
      have hk0 : k0 ≠ id := by
        intro h
        exact hpre (by simp [h])
      have hrest : id ∉ rest.map Prod.fst := fun h => hpre (by simp [h])
      simp [updateC, hk0, ih hrest]

/-- The middle client of a key-nodup registry is found by lookup. -/
theorem lookupC_append_middle (pre post : Registry) (id : String) (c : ClientState)
    (hnd : ((pre ++ (id, c) :: post).map Prod.fst).Nodup) :
    lookupC (pre ++ (id, c) :: post) id = some c := by
  have hpre : id ∉ pre.map Prod.fst := by
    intro hmem
    rw [List.map_append, List.map_cons] at hnd
    rcases List.nodup_append.mp hnd with ⟨_, _, hdisj⟩
    exact hdisj hmem (List.mem_cons_self _ _)
  rw [lookupC_append_of_none _ _ _ ((lookupC_eq_none_iff _ _).mpr hpre)]
  simp [lookupC]

/-- Key-nodupness gives the middle key absent from the prefix keys. -/
theorem middle_not_mem_pre (pre post : Registry) (id : String) (c : ClientState)
    (hnd : ((pre ++ (id, c) :: post).map Prod.fst).Nodup) :
    id ∉ pre.map Prod.fst := by
  intro hmem
  rw [List.map_append, List.map_cons] at hnd
  rcases List.nodup_append.mp hnd with ⟨_, _, hdisj⟩
  exact hdisj hmem (List.mem_cons_self _ _)

/-- The key at position `pre.length` of the order is the middle client's id. -/
theorem order_getD_middle (pre post : Registry) (id : String) (c : ClientState) :
    ((pre ++ (id, c) :: post).map Prod.fst).getD pre.length "" = id := by
  rw [List.getD_eq_getElem?_getD, List.getElem?_map,
      List.getElem?_append_right (by simp)]
  simp

/-- One WRR selection at the cursor pops the head of the cursor client's non-empty
queue, lazily refilling the slot counter from its weight when exhausted, and advances
the cursor exactly when the decremented counter hits zero (spec §4.3.1 steps 2-3). -/
theorem wrrScan_pop (order : List String) (pre post : Registry) (id : String)
    (c : ClientState) (j : Job) (t : List Job) (rem fuel : Nat)
    (horder : order = (pre ++ (id, c) :: post).map Prod.fst)
    (hnd : ((pre ++ (id, c) :: post).map Prod.fst).Nodup)
    (hq : c.queue = j :: t) :
    wrrScan order (pre ++ (id, c) :: post) pre.length rem (fuel + 1)
      = ⟨some j, pre ++ (id, { c with queue := t }) :: post,
         if (if rem = 0 then c.weight else rem) - 1 = 0
         then (pre.length + 1) % order.length
         else pre.length,
         (if rem = 0 then c.weight else rem) - 1⟩ := by
  have hcur : order.getD pre.length "" = id := by
    rw [horder]
    exact order_getD_middle pre post id c
  have hlk : lookupC (pre ++ (id, c) :: post) id = some c :=
    lookupC_append_middle pre post id c hnd
  have hupd : updateC (pre ++ (id, c) :: post) id
      (fun c0 => { c0 with queue := c0.queue.tail })
      = pre ++ (id, { c with queue := c.queue.tail }) :: post :=
    updateC_append_middle pre post id c _ (middle_not_mem_pre pre post id c hnd)
  simp only [wrrScan, hcur, hlk, hq, hupd]
  rfl

/-- One `select_next_job` call of the modelled WRR policy at the cursor client. -/
theorem wrrSelect_pop (order : List String) (pre post : Registry) (id : String)
    (c : ClientState) (j : Job) (t : List Job) (rem : Nat)
    (horder : order = (pre ++ (id, c) :: post).map Prod.fst)
    (hnd : ((pre ++ (id, c) :: post).map Prod.fst).Nodup)
    (hq : c.queue = j :: t) :
    WeightedRoundRobinPolicy.select_next_job ⟨pre.length, rem⟩ order
        (pre ++ (id, c) :: post)
      = (some j, pre ++ (id, { c with queue := t }) :: post,
         ⟨if (if rem = 0 then c.weight else rem) - 1 = 0
           then (pre.length + 1) % order.length else pre.length,
          (if rem = 0 then c.weight else rem) - 1⟩) := by
  obtain ⟨fl, hfl⟩ : ∃ fl, order.length = fl + 1 := by
    refine ⟨pre.length + post.length, ?_⟩
    rw [horder]
    simp [List.length_append]
    omega
  simp only [WeightedRoundRobinPolicy.select_next_job, hfl,
    wrrScan_pop order pre post id c j t rem fl horder hnd hq]

/-- One-step unfolding of `wrrRun` in projection form. -/
theorem wrrRun_succ (order : List String) (k : Nat) (clients : Registry)
    (p : WRRState) :
    wrrRun order (k + 1) clients p
      = ((WeightedRoundRobinPolicy.select_next_job p order clients).1.toList
          ++ (wrrRun order k
              (WeightedRoundRobinPolicy.select_next_job p order clients).2.1
              (WeightedRoundRobinPolicy.select_next_job p order clients).2.2).1,
         (wrrRun order k
           (WeightedRoundRobinPolicy.select_next_job p order clients).2.1
           (WeightedRoundRobinPolicy.select_next_job p order clients).2.2).2) := rfl

/-- Draining `r` remaining slots from the cursor client: with `r ≥ 1` slots and at
least `r` queued jobs, the next `r` selections dispatch the client's first `r` jobs
in FIFO order and leave the cursor advanced past it with an exhausted counter. -/
theorem wrrRun_drain (order : List String) (pre post : Registry) (id : String) :
    ∀ (r : Nat) (c : ClientState), 1 ≤ r → r ≤ c.queue.length →
      order = (pre ++ (id, c) :: post).map Prod.fst →
      ((pre ++ (id, c) :: post).map Prod.fst).Nodup →
      wrrRun order r (pre ++ (id, c) :: post) ⟨pre.length, r⟩
        = (c.queue.take r,
           pre ++ (id, { c with queue := c.queue.drop r }) :: post,
           ⟨(pre.length + 1) % order.length, 0⟩) := by
  intro r
  induction r with
  | zero => intro c h1; omega
  | succ rr ih =>
      intro c h1 h2 horder hnd
      obtain ⟨j, t, hq⟩ : ∃ j t, c.queue = j :: t := by
        cases hcq : c.queue with
        | nil => rw [hcq] at h2; simp at h2
        | cons a b => exact ⟨a, b, rfl⟩
      have hsel := wrrSelect_pop order pre post id c j t (rr + 1) horder hnd hq
      simp only [Nat.succ_ne_zero, if_false, Nat.add_sub_cancel] at hsel
      cases rr with
      | zero =>
          rw [wrrRun_succ]
          simp only [hsel]
          rw [hq]
          simp [wrrRun]
      | succ rr2 =>
          have hne : ¬ (rr2 + 1 = 0) := Nat.succ_ne_zero rr2
          rw [wrrRun_succ]
          simp only [hsel]
          have hkeys : (pre ++ (id, c) :: post).map Prod.fst
              = (pre ++ (id, { c with queue := t }) :: post).map Prod.fst := by
            simp
          have hih := ih { c with queue := t } (Nat.succ_le_succ (Nat.zero_le _))
            (by
              rw [hq] at h2
              simpa using Nat.le_of_succ_le_succ h2)
            (horder.trans hkeys) (hkeys ▸ hnd)
          rw [if_neg hne, hih, hq]
          simp

/-- A full quota at the cursor client: starting with an exhausted slot counter, the
next `weight` selections lazily refill from the client's weight, dispatch its first
`weight` jobs in FIFO order, and advance the cursor past it. -/
theorem wrrRun_client (order : List String) (pre post : Registry) (id : String)
    (c : ClientState)
    (hw : 1 ≤ c.weight) (hql : c.weight ≤ c.queue.length)
    (horder : order = (pre ++ (id, c) :: post).map Prod.fst)
    (hnd : ((pre ++ (id, c) :: post).map Prod.fst).Nodup) :
    wrrRun order c.weight (pre ++ (id, c) :: post) ⟨pre.length, 0⟩
      = (c.queue.take c.weight,
         pre ++ (id, { c with queue := c.queue.drop c.weight }) :: post,
         ⟨(pre.length + 1) % order.length, 0⟩) := by
  obtain ⟨j, t, hq⟩ : ∃ j t, c.queue = j :: t := by
    cases hcq : c.queue with
    | nil =>
        rw [hcq] at hql
        simp at hql
        omega
    | cons a b => exact ⟨a, b, rfl⟩
  obtain ⟨w0, hw0⟩ : ∃ w0, c.weight = w0 + 1 := ⟨c.weight - 1, by omega⟩
  have hsel := wrrSelect_pop order pre post id c j t 0 horder hnd hq
  have h0 : (if (0 : Nat) = 0 then c.weight else 0) = c.weight := if_pos rfl
  rw [h0] at hsel
  rw [hw0] at hsel ⊢
  simp only [Nat.add_sub_cancel] at hsel
  cases w0 with
  | zero =>
      rw [wrrRun_succ]
      simp only [hsel]
      rw [hq]
      simp [wrrRun]
  | succ w1 =>
      have hne : ¬ (w1 + 1 = 0) := Nat.succ_ne_zero w1
      rw [wrrRun_succ]
      simp only [hsel]
      rw [if_neg hne]
      have hkeys : (pre ++ (id, c) :: post).map Prod.fst
          = (pre ++ (id, { c with queue := t }) :: post).map Prod.fst := by
        simp
      have hih := wrrRun_drain order pre post id (w1 + 1) { c with queue := t }
        (by omega)
        (by
          rw [hq, hw0] at hql
          simpa using Nat.le_of_succ_le_succ hql)
        (horder.trans hkeys) (hkeys ▸ hnd)
      rw [hw0] at hih
      rw [hih, hq]
      simp

/-- Splitting a WRR run into two consecutive runs. -/
theorem wrrRun_add (order : List String) :
    ∀ (a b : Nat) (clients : Registry) (p : WRRState),
      wrrRun order (a + b) clients p
        = ((wrrRun order a clients p).1
            ++ (wrrRun order b (wrrRun order a clients p).2.1
                (wrrRun order a clients p).2.2).1,
           (wrrRun order b (wrrRun order a clients p).2.1
             (wrrRun order a clients p).2.2).2) := by
  intro a
  induction a with
  | zero =>
      intro b clients p
      simp [wrrRun]
  | succ a ih =>
      intro b clients p
      have hsucc : a + 1 + b = (a + b) + 1 := by omega
      rw [hsucc, wrrRun_succ order (a + b), ih, wrrRun_succ order a]
      simp [List.append_assoc]

/-- Draining a suffix of clients in order: starting at the first of them with an
exhausted slot counter, `Σ wᵢ` selections dispatch each suffix client's first `wᵢ`
jobs, client after client in registration order, and wrap the cursor to 0. -/
theorem wrrRun_segments (order : List String) :
    ∀ (post pre : Registry),
      order = ((pre ++ post).map Prod.fst) →
      ((pre ++ post).map Prod.fst).Nodup →
      (∀ kc ∈ post, 1 ≤ kc.2.weight) →
      (∀ kc ∈ post, kc.2.weight ≤ kc.2.queue.length) →
      post ≠ [] →
      wrrRun order (totalW post) (pre ++ post) ⟨pre.length, 0⟩
        = ((post.map (fun kc => kc.2.queue.take kc.2.weight)).flatten,
           pre ++ post.map (fun kc =>
             (kc.1, { kc.2 with queue := kc.2.queue.drop kc.2.weight })),
           ⟨0, 0⟩) := by
  intro post
  induction post with
  | nil => intro pre _ _ _ _ hne; exact absurd rfl hne
  | cons kc rest ih =>
      intro pre horder hnd hw hql _
      obtain ⟨id, c⟩ := kc
      have hw1 : 1 ≤ c.weight := hw _ (List.mem_cons_self _ _)
      have hql1 : c.weight ≤ c.queue.length := hql _ (List.mem_cons_self _ _)
      have hcl := wrrRun_client order pre rest id c hw1 hql1 horder hnd
      by_cases hrest : rest = []
      · subst hrest
        have htot : totalW [(id, c)] = c.weight := by simp [totalW]
        rw [htot, hcl]
        have hlen : order.length = pre.length + 1 := by
          rw [horder]
          simp
        rw [hlen, Nat.mod_self]
        simp
      · have hrl : 0 < rest.length := List.length_pos.mpr hrest
        have htot : totalW ((id, c) :: rest) = c.weight + totalW rest := by
          simp [totalW]
        rw [htot, wrrRun_add, hcl]
        have hlen : pre.length + 1 < order.length := by
          rw [horder]
          simp
          omega
        rw [Nat.mod_eq_of_lt hlen]
        have hglue : (pre ++ [(id, { c with queue := c.queue.drop c.weight })]) ++ rest
            = pre ++ (id, { c with queue := c.queue.drop c.weight }) :: rest := by
          simp
        have hplen : (pre ++ [(id, { c with queue := c.queue.drop c.weight })]).length
            = pre.length + 1 := by
          simp
        have horder2 : order =
            (((pre ++ [(id, { c with queue := c.queue.drop c.weight })]) ++ rest).map
              Prod.fst) := by
          rw [horder]
          simp
        have hnd2 : (((pre ++ [(id, { c with queue := c.queue.drop c.weight })])
            ++ rest).map Prod.fst).Nodup := by
          have hkeys : ((pre ++ (id, c) :: rest).map Prod.fst)
              = (((pre ++ [(id, { c with queue := c.queue.drop c.weight })])
                  ++ rest).map Prod.fst) := by
            simp
          exact hkeys ▸ hnd
        have hstep := ih (pre ++ [(id, { c with queue := c.queue.drop c.weight })])
          horder2 hnd2
          (fun kc hmem => hw kc (List.mem_cons_of_mem _ hmem))
          (fun kc hmem => hql kc (List.mem_cons_of_mem _ hmem))
          hrest
        rw [hglue, hplen] at hstep
        simp only [hstep]
        simp [List.append_assoc]

/-- C3 (spec-modelled WRR): with a single worker, clients registered in order with
weights `w₁..wₙ` and every queue pre-filled with at least `wᵢ` jobs, the first
`Σ wᵢ` dispatches returned by repeated `select_next_job` calls from the fresh policy
state are exactly `w₁` jobs of the first client, then `w₂` of the second, …, each
client's segment being the FIFO prefix of its own queue. -/
theorem wrr_determinism (clients : Registry)
    (hnd : (clients.map Prod.fst).Nodup)
    (hw : ∀ kc ∈ clients, 1 ≤ kc.2.weight)
    (hq : ∀ kc ∈ clients, kc.2.weight ≤ kc.2.queue.length) :
    (wrrRun (clients.map Prod.fst) (totalW clients) clients ⟨0, 0⟩).1
      = wrrExpected clients := by
  by_cases hnil : clients = []
  · subst hnil
    rfl
  · exact congrArg (fun x => x.1)
      (wrrRun_segments (clients.map Prod.fst) clients [] rfl hnd hw hq hnil)

/-- Concrete instantiation of `wrr_determinism` on `wrrDemoRegistry`: six selections
dispatch `A,A,A,B,C,C` — each client's own jobs in FIFO order. -/
theorem wrr_determinism_witness :
    ((wrrDemoRegistry.map Prod.fst).Nodup
      ∧ (∀ kc ∈ wrrDemoRegistry, 1 ≤ kc.2.weight)
      ∧ (∀ kc ∈ wrrDemoRegistry, kc.2.weight ≤ kc.2.queue.length))
    ∧ (wrrRun (wrrDemoRegistry.map Prod.fst) (totalW wrrDemoRegistry)
        wrrDemoRegistry ⟨0, 0⟩).1 = wrrExpected wrrDemoRegistry :=
  ⟨⟨by decide, by decide, by decide⟩,
   wrr_determinism wrrDemoRegistry (by decide) (by decide) (by decide)⟩


/-! ## Well-formedness of reachable states (justifies the C5 hypotheses) -/

/-- The DRR scan never changes the registry's key sequence. -/
theorem drrScan_map_fst (order : List String) (q : Nat) :
    ∀ fuel clients d idx,
      ((drrScan order q clients d idx fuel).clients).map Prod.fst
        = clients.map Prod.fst := by
  intro fuel
  induction fuel with
  | zero => intro clients d idx; rfl
  | succ n ih =>
      intro clients d idx
      cases hl : lookupC clients (order.getD idx "") with
      | none => simp only [drrScan, hl]
      | some c =>
          cases hq : c.queue with
          | nil =>
              simp only [drrScan, hl, hq]
              exact ih clients _ _
          | cons j t =>
              simp only [drrScan, hl, hq]
              exact updateC_map_fst _ _ _

/-- The DRR scan keeps the cursor inside the order. -/
theorem drrScan_idx_lt (order : List String) (q : Nat) :
    ∀ fuel clients d idx, idx < order.length →
      (drrScan order q clients d idx fuel).idx < order.length := by
  intro fuel
  induction fuel with
  | zero => intro clients d idx h; exact h
  | succ n ih =>
      intro clients d idx h
      have hn : 0 < order.length := Nat.lt_of_le_of_lt (Nat.zero_le _) h
      cases hl : lookupC clients (order.getD idx "") with
      | none => simpa only [drrScan, hl] using h
      | some c =>
          cases hq : c.queue with
          | nil =>
              simp only [drrScan, hl, hq]
              exact ih clients _ _ (Nat.mod_lt _ hn)
          | cons j t =>
              simp only [drrScan, hl, hq]
              by_cases hd2 : (if getDef d (order.getD idx "") ≤ 0 then
                  getDef d (order.getD idx "")
                    + ((c.weight * q : Nat) : Int)
                  else getDef d (order.getD idx "")) - (j.cost_hint : Int) ≤ 0
              · rw [if_pos hd2]
                exact Nat.mod_lt _ hn
              · rw [if_neg hd2]
                exact h

/-- `submit` never changes the registry's key sequence. -/
theorem submit_map_fst (s : SchedulerState) (id0 : String) (cost : Nat) :
    (submit s id0 cost).state.clients.map Prod.fst = s.clients.map Prod.fst := by
  cases hl : lookupC s.clients id0 with
  | none => simp [submit, hl, SubmitResult.state]
  | some c0 =>
      by_cases hdep : c0.max_queue_depth > 0
      · cases hstrat : c0.overflow_strategy with
        | REJECT =>
            by_cases hfull : c0.queue.length ≥ c0.max_queue_depth <;>
              simp [submit, hl, hdep, hstrat, hfull, SubmitResult.state,
                updateC_map_fst]
        | BLOCK =>
            by_cases hfull : c0.queue.length ≥ c0.max_queue_depth <;>
              simp [submit, hl, hdep, hstrat, hfull, SubmitResult.state,
                updateC_map_fst]
        | DROP_OLDEST =>
            by_cases hfull : c0.queue.length ≥ c0.max_queue_depth <;>
              simp [submit, hl, hdep, hstrat, hfull, SubmitResult.state,
                updateC_map_fst]
        | DROP_NEWEST =>
            by_cases hfull : c0.queue.length ≥ c0.max_queue_depth <;>
              simp [submit, hl, hdep, hstrat, hfull, SubmitResult.state,
                updateC_map_fst]
      · simp [submit, hl, hdep, SubmitResult.state, updateC_map_fst]

/-- Every reachable state is well-formed: registered ids are distinct and the DRR
cursor is 0 or within the registry — the hypotheses of
`select_none_iff_all_queues_empty` hold along every trace. -/
theorem runOps_wf (q : Nat) (ops : List Op) :
    (((runOps q ops).1.clients.map Prod.fst).Nodup)
    ∧ ((runOps q ops).2.drr_index = 0
        ∨ (runOps q ops).2.drr_index < (runOps q ops).1.clients.length) := by
  have step : ∀ (sp : SchedulerState × DRRState) (op : Op),
      (sp.1.clients.map Prod.fst).Nodup →
      (sp.2.drr_index = 0 ∨ sp.2.drr_index < sp.1.clients.length) →
      ((applyOp sp op).1.clients.map Prod.fst).Nodup
      ∧ ((applyOp sp op).2.drr_index = 0
          ∨ (applyOp sp op).2.drr_index < (applyOp sp op).1.clients.length) := by
    intro sp op h1g h2g
    obtain ⟨s, p⟩ := sp
    have h1 : (s.clients.map Prod.fst).Nodup := h1g
    have h2 : p.drr_index = 0 ∨ p.drr_index < s.clients.length := h2g
    cases op with
    | register id w depth strat =>
        by_cases hw : w = 0
        · simpa [applyOp, register_client, hw] using ⟨h1, h2⟩
        · cases hdup : lookupC s.clients id with
          | some c => simpa [applyOp, register_client, hw, hdup] using ⟨h1, h2⟩
          | none =>
              have hstate1 : (applyOp (s, p) (Op.register id w depth strat)).1.clients
                  = s.clients ++ [(id, mkClientState id w depth strat)] := by
                simp [applyOp, register_client, hw, hdup]
              have hstate2 : (applyOp (s, p) (Op.register id w depth strat)).2.drr_index
                  = p.drr_index := by
                simp [applyOp, register_client, hw, hdup,
                  DeficitRoundRobinPolicy.on_client_registered]
              constructor
              · rw [hstate1]
                have hid : id ∉ s.clients.map Prod.fst :=
                  (lookupC_eq_none_iff _ _).mp hdup
                rw [List.map_append]
                refine List.Nodup.append h1 (by simp) ?_
                intro x hx hx2
                simp at hx2
                rw [hx2] at hx
                exact hid hx
              · rw [hstate1, hstate2]
                rcases h2 with h0 | hlt
                · exact Or.inl h0
                · refine Or.inr ?_
                  simp only [List.length_append, List.length_cons, List.length_nil]
                  omega
    | submit id cost =>
        refine ⟨?_, ?_⟩
        · have := submit_map_fst s id cost
          show ((submit s id cost).state.clients.map Prod.fst).Nodup
          rw [this]
          exact h1
        · have hlen : (submit s id cost).state.clients.length = s.clients.length := by
            have := congrArg List.length (submit_map_fst s id cost)
            simpa using this
          show p.drr_index = 0 ∨ p.drr_index < (submit s id cost).state.clients.length
          rw [hlen]
          exact h2
    | execute dur =>
        by_cases hord : s.client_order.isEmpty
        · have hstate : applyOp (s, p) (Op.execute dur) = (s, p) := by
            simp [applyOp, select_next_job, hord]
          rw [hstate]
          exact ⟨h1, h2⟩
        · have hne : s.clients ≠ [] := by
            intro h
            rw [SchedulerState.client_order, h] at hord
            exact hord rfl
          have hn : 0 < s.clients.length := List.length_pos.mpr hne
          have hidx : p.drr_index < s.client_order.length := by
            rw [SchedulerState.client_order, List.length_map]
            rcases h2 with h0 | hlt
            · omega
            · exact hlt
          have hscan1 := drrScan_map_fst s.client_order p.base_quantum
            s.client_order.length s.clients p.deficit p.drr_index
          have hscan2 := drrScan_idx_lt s.client_order p.base_quantum
            s.client_order.length s.clients p.deficit p.drr_index hidx
          cases hjob : (drrScan s.client_order p.base_quantum s.clients p.deficit
              p.drr_index s.client_order.length).job with
          | none =>
              have hcl2 : (applyOp (s, p) (Op.execute dur)).1.clients
                  = (drrScan s.client_order p.base_quantum s.clients p.deficit
                      p.drr_index s.client_order.length).clients := by
                simp [applyOp, select_next_job, hord,
                  DeficitRoundRobinPolicy.select_next_job, hjob]
              have hp2 : (applyOp (s, p) (Op.execute dur)).2.drr_index
                  = (drrScan s.client_order p.base_quantum s.clients p.deficit
                      p.drr_index s.client_order.length).idx := by
                simp [applyOp, select_next_job, hord,
                  DeficitRoundRobinPolicy.select_next_job, hjob]
              refine ⟨by rw [hcl2, hscan1]; exact h1, Or.inr ?_⟩
              rw [hcl2, hp2]
              have hlen2 : (drrScan s.client_order p.base_quantum s.clients p.deficit
                  p.drr_index s.client_order.length).clients.length
                  = s.clients.length := by
                have := congrArg List.length hscan1
                simpa using this
              rw [hlen2]
              have hfix : s.client_order.length = s.clients.length := by
                simp [SchedulerState.client_order]
              rw [← hfix]
              exact hscan2
          | some jb =>
              have hrec1 : (record_execution { s with
                  clients := (drrScan s.client_order p.base_quantum s.clients
                    p.deficit p.drr_index s.client_order.length).clients }
                  jb.client_id dur).clients.map Prod.fst
                  = s.clients.map Prod.fst := by
                cases hlook2 : lookupC (drrScan s.client_order p.base_quantum
                    s.clients p.deficit p.drr_index
                    s.client_order.length).clients jb.client_id with
                | none =>
                    simp [record_execution, hlook2]
                    exact hscan1
                | some cx =>
                    simp [record_execution, hlook2, updateC_map_fst]
                    exact hscan1
              have hcl2 : (applyOp (s, p) (Op.execute dur)).1.clients
                  = (record_execution { s with
                      clients := (drrScan s.client_order p.base_quantum s.clients
                        p.deficit p.drr_index s.client_order.length).clients }
                      jb.client_id dur).clients := by
                simp [applyOp, select_next_job, hord,
                  DeficitRoundRobinPolicy.select_next_job, hjob]
              have hp2 : (applyOp (s, p) (Op.execute dur)).2.drr_index
                  = (drrScan s.client_order p.base_quantum s.clients p.deficit
                      p.drr_index s.client_order.length).idx := by
                simp [applyOp, select_next_job, hord,
                  DeficitRoundRobinPolicy.select_next_job, hjob]
              refine ⟨by rw [hcl2, hrec1]; exact h1, Or.inr ?_⟩
              rw [hcl2, hp2]
              have hlen2 : (record_execution { s with
                  clients := (drrScan s.client_order p.base_quantum s.clients
                    p.deficit p.drr_index s.client_order.length).clients }
                  jb.client_id dur).clients.length = s.clients.length := by
                have := congrArg List.length hrec1
                simpa using this
              rw [hlen2]
              have hfix : s.client_order.length = s.clients.length := by
                simp [SchedulerState.client_order]
              rw [← hfix]
              exact hscan2
  have main : ∀ (l : List Op) (sp : SchedulerState × DRRState),
      (sp.1.clients.map Prod.fst).Nodup →
      (sp.2.drr_index = 0 ∨ sp.2.drr_index < sp.1.clients.length) →
      (((l.foldl applyOp sp).1.clients.map Prod.fst).Nodup)
      ∧ ((l.foldl applyOp sp).2.drr_index = 0
          ∨ (l.foldl applyOp sp).2.drr_index
              < (l.foldl applyOp sp).1.clients.length) := by
    intro l
    induction l with
    | nil => exact fun sp ha hb => And.intro ha hb
    | cons op rest ih =>
        intro sp ha hb
        have h := step sp op ha hb
        exact ih _ h.1 h.2
  exact main ops (initScheduler, initDRR q) (by simp [initScheduler]) (Or.inl rfl)

end JobSystem
